import Mathlib

/-!
Verification of the chess engine core (`src/lib/chess-engine.ts`):
the static evaluator, the win-probability estimator, the minimax search
with alpha-beta pruning, and the game-session bookkeeping.

The rules engine (`chess.js`) is external to the repository; it is
modelled as an abstract structure `Game` providing move lists, move
application, status queries, the side to move and the board array,
exactly the capability set the TypeScript engine consumes.

Numeric scores in the source are JavaScript numbers where only integers
and the two signed infinities ever occur (piece values and table bonuses
are integers; checkmate is scored `±Infinity`).  They are embedded as
`Val := WithBot (WithTop ℤ)`, with `⊥` for `-Infinity` and `⊤` for
`Infinity`.
-/

namespace ChessEngine

/-- Scores: integers extended with `-Infinity` (`⊥`) and `Infinity` (`⊤`). -/
abbrev Val : Type := WithBot (WithTop ℤ)

/-- Embed an integer score. -/
def Val.fin (n : ℤ) : Val := ((n : WithTop ℤ) : WithBot (WithTop ℤ))

/-- `'w' | 'b'` from chess.js. -/
inductive Color where
  | w : Color
  | b : Color
deriving DecidableEq, Repr

/-- `PieceSymbol` from chess.js: pawn, knight, bishop, rook, queen, king. -/
inductive Pc where
  | p : Pc
  | n : Pc
  | b : Pc
  | r : Pc
  | q : Pc
  | k : Pc
deriving DecidableEq, Repr

/-- Squares are algebraic names (`"e4"`), opaque strings to this core. -/
abbrev Square : Type := String

/-- A piece on the board: `{ type, color }`. -/
structure Piece where
  type : Pc
  color : Color
deriving DecidableEq, Repr

/-- A verbose `Move` record as produced by chess.js: origin and target
square, the mover's color, the captured piece kind when the move is a
capture, the promotion kind when the move is a promotion.  (`from` is a
Lean keyword, so the field is named `src`; `to` is named `dst`.) -/
structure Mv where
  src : Square
  dst : Square
  color : Color
  captured : Option Pc
  promotion : Option Pc
deriving DecidableEq, Repr

/-- `Difficulty = 'easy' | 'medium' | 'hard'`. -/
inductive Difficulty where
  | easy : Difficulty
  | medium : Difficulty
  | hard : Difficulty
deriving DecidableEq, Repr

/-- `PIECE_VALUES` from the source. -/
def PIECE_VALUES : Pc → ℤ
  | .p => 100
  | .n => 320
  | .b => 330
  | .r => 500
  | .q => 900
  | .k => 20000

/-- `PAWN_TABLE` from the source (row 0 = rank 8). -/
def PAWN_TABLE : List (List ℤ) :=
  [[0, 0, 0, 0, 0, 0, 0, 0],
   [50, 50, 50, 50, 50, 50, 50, 50],
   [10, 10, 20, 30, 30, 20, 10, 10],
   [5, 5, 10, 25, 25, 10, 5, 5],
   [0, 0, 0, 20, 20, 0, 0, 0],
   [5, -5, -10, 0, 0, -10, -5, 5],
   [5, 10, 10, -20, -20, 10, 10, 5],
   [0, 0, 0, 0, 0, 0, 0, 0]]

/-- `KNIGHT_TABLE` from the source. -/
def KNIGHT_TABLE : List (List ℤ) :=
  [[-50, -40, -30, -30, -30, -30, -40, -50],
   [-40, -20, 0, 0, 0, 0, -20, -40],
   [-30, 0, 10, 15, 15, 10, 0, -30],
   [-30, 5, 15, 20, 20, 15, 5, -30],
   [-30, 0, 15, 20, 20, 15, 0, -30],
   [-30, 5, 10, 15, 15, 10, 5, -30],
   [-40, -20, 0, 5, 5, 0, -20, -40],
   [-50, -40, -30, -30, -30, -30, -40, -50]]

/-- `TABLE[row][col]` lookup. -/
def tableAt (t : List (List ℤ)) (row col : ℕ) : ℤ :=
  (t.getD row []).getD col 0

/-- A board as returned by chess.js `board()`: 8 rows (row 0 = rank 8),
each of 8 entries, `none` for an empty square. -/
abbrev Board : Type := List (List (Option Piece))

/-- The contribution of one occupied square in `evaluateBoard`'s loop:
material value, plus the pawn/knight positional bonus (the table is read
with the row mirrored, `7 - row`, for Black), the total signed positive
for White and negative for Black. -/
def squareScore (pc : Piece) (row col : ℕ) : ℤ :=
  let base := PIECE_VALUES pc.type
  let value :=
    if pc.type = Pc.p then
      base + (if pc.color = Color.w then tableAt PAWN_TABLE row col
              else tableAt PAWN_TABLE (7 - row) col)
    else if pc.type = Pc.n then
      base + (if pc.color = Color.w then tableAt KNIGHT_TABLE row col
              else tableAt KNIGHT_TABLE (7 - row) col)
    else base
  if pc.color = Color.w then value else -value

/-- The material/positional double loop of `evaluateBoard`
(`for row in 0..7, for col in 0..7`). -/
def scoreBoard (board : Board) : ℤ :=
  (List.range 8).foldl
    (fun s row =>
      (List.range 8).foldl
        (fun s col =>
          match (board.getD row []).getD col none with
          | some pc => s + squareScore pc row col
          | none => s)
        s)
    0

/-- The abstract rules engine plus position store (the chess.js `Chess`
object's query surface used by `ChessEngine`). -/
structure Game where
  Pos : Type
  /-- `game.moves({ verbose: true })`: the legal moves of the side to move. -/
  moves : Pos → List Mv
  /-- `game.move(m)` for a verbose legal move `m`: the resulting position. -/
  apply : Pos → Mv → Pos
  /-- `game.isGameOver()`. -/
  isGameOver : Pos → Bool
  /-- `game.isCheckmate()`. -/
  isCheckmate : Pos → Bool
  /-- `game.isStalemate()`. -/
  isStalemate : Pos → Bool
  /-- `game.isDraw()`. -/
  isDraw : Pos → Bool
  /-- `game.turn()`. -/
  turn : Pos → Color
  /-- `game.board()`. -/
  board : Pos → Board
  /-- `game.move({from, to, promotion})`: `some` (the move record and the
  new position) when legal, `none` when chess.js throws. -/
  tryMove : Pos → Square → Square → Pc → Option (Mv × Pos)

/-- `evaluateBoard()`: checkmate first (`-Infinity` when White, the side
to move, is mated, `Infinity` when Black is), then any draw (exactly 0),
otherwise the material/positional sum. -/
def evaluateBoard (G : Game) (p : G.Pos) : Val :=
  if G.isCheckmate p then (if G.turn p = Color.w then (⊥ : Val) else (⊤ : Val))
  else if G.isDraw p then Val.fin 0
  else Val.fin (scoreBoard (G.board p))

/-- `getCapturedPieces(history)`: walk the history; a capture made by
White is pushed onto the `w` list, a capture made by Black onto the `b`
list. -/
def getCapturedPieces (history : List Mv) : List Pc × List Pc :=
  history.foldl
    (fun acc move =>
      match move.captured with
      | some c =>
          if move.color = Color.w then (acc.1 ++ [c], acc.2)
          else (acc.1, acc.2 ++ [c])
      | none => acc)
    ([], [])

/-- The chess.js `board()` array for the standard starting position
(row 0 = rank 8, Black's back rank). -/
def startBoard : Board :=
  [[some ⟨Pc.r, Color.b⟩, some ⟨Pc.n, Color.b⟩, some ⟨Pc.b, Color.b⟩, some ⟨Pc.q, Color.b⟩,
    some ⟨Pc.k, Color.b⟩, some ⟨Pc.b, Color.b⟩, some ⟨Pc.n, Color.b⟩, some ⟨Pc.r, Color.b⟩],
   [some ⟨Pc.p, Color.b⟩, some ⟨Pc.p, Color.b⟩, some ⟨Pc.p, Color.b⟩, some ⟨Pc.p, Color.b⟩,
    some ⟨Pc.p, Color.b⟩, some ⟨Pc.p, Color.b⟩, some ⟨Pc.p, Color.b⟩, some ⟨Pc.p, Color.b⟩],
   [none, none, none, none, none, none, none, none],
   [none, none, none, none, none, none, none, none],
   [none, none, none, none, none, none, none, none],
   [none, none, none, none, none, none, none, none],
   [some ⟨Pc.p, Color.w⟩, some ⟨Pc.p, Color.w⟩, some ⟨Pc.p, Color.w⟩, some ⟨Pc.p, Color.w⟩,
    some ⟨Pc.p, Color.w⟩, some ⟨Pc.p, Color.w⟩, some ⟨Pc.p, Color.w⟩, some ⟨Pc.p, Color.w⟩],
   [some ⟨Pc.r, Color.w⟩, some ⟨Pc.n, Color.w⟩, some ⟨Pc.b, Color.w⟩, some ⟨Pc.q, Color.w⟩,
    some ⟨Pc.k, Color.w⟩, some ⟨Pc.b, Color.w⟩, some ⟨Pc.n, Color.w⟩, some ⟨Pc.r, Color.w⟩]]

/-- A rules-engine state presenting the standard starting position:
White to move, no terminal flag set, `board()` the standard array. -/
def startGame : Game where
  Pos := Unit
  moves _ := []
  apply _ _ := ()
  isGameOver _ := false
  isCheckmate _ := false
  isStalemate _ := false
  isDraw _ := false
  turn _ := Color.w
  board _ := startBoard
  tryMove _ _ _ _ := none

/-- `getSearchDepth()`: easy → 1, medium → 2, hard → 3. -/
def getSearchDepth : Difficulty → ℕ
  | .easy => 1
  | .medium => 2
  | .hard => 3

/-- The maximizing branch of `minimax`'s move loop: `f move alpha beta`
scores one child; `maxEval` and `alpha` are updated after each child and
the loop breaks (returning the running `maxEval`) once `beta <= alpha`. -/
def abMaxLoop (f : Mv → Val → Val → Val) :
    List Mv → Val → Val → Val → Val
  | [], maxEval, _, _ => maxEval
  | move :: ms, maxEval, alpha, beta =>
      let evalScore := f move alpha beta
      let maxEval' := max maxEval evalScore
      let alpha' := max alpha evalScore
      if beta ≤ alpha' then maxEval' else abMaxLoop f ms maxEval' alpha' beta

/-- The minimizing branch of `minimax`'s move loop. -/
def abMinLoop (f : Mv → Val → Val → Val) :
    List Mv → Val → Val → Val → Val
  | [], minEval, _, _ => minEval
  | move :: ms, minEval, alpha, beta =>
      let evalScore := f move alpha beta
      let minEval' := min minEval evalScore
      let beta' := min beta evalScore
      if beta' ≤ alpha then minEval' else abMinLoop f ms minEval' alpha beta'

/-- `minimax(depth, alpha, beta, isMaximizing)` as a pure function of the
current position (the mutate/undo pair of the source is made explicit in
`minimaxS` below and shown equivalent). -/
def minimax (G : Game) : ℕ → G.Pos → Bool → Val → Val → Val
  | 0, p, _, _, _ => evaluateBoard G p
  | d + 1, p, isMaximizing, alpha, beta =>
      if G.isGameOver p then evaluateBoard G p
      else if isMaximizing then
        abMaxLoop (fun m a b => minimax G d (G.apply p m) false a b)
          (G.moves p) ⊥ alpha beta
      else
        abMinLoop (fun m a b => minimax G d (G.apply p m) true a b)
          (G.moves p) ⊤ alpha beta

/-- `minimax` with the pruning removed: every child is scored, no
`alpha`/`beta` window, the `beta <= alpha` break deleted.  This is the
unpruned minimax the specification compares the search against. -/
def minimaxPlain (G : Game) : ℕ → G.Pos → Bool → Val
  | 0, p, _ => evaluateBoard G p
  | d + 1, p, isMaximizing =>
      if G.isGameOver p then evaluateBoard G p
      else if isMaximizing then
        (G.moves p).foldl
          (fun acc m => max acc (minimaxPlain G d (G.apply p m) false)) ⊥
      else
        (G.moves p).foldl
          (fun acc m => min acc (minimaxPlain G d (G.apply p m) true)) ⊤

/-- The candidate loop of `getBestMove()`: each move is scored by
`minimax(depth - 1, -Infinity, Infinity, !isMaximizing)` on the child
position, and `bestMove`/`bestValue` are replaced on strict improvement
only. -/
def bestFold (G : Game) (d : ℕ) (isMaximizing : Bool) (p : G.Pos) :
    List Mv → Option Mv → Val → Option Mv × Val
  | [], bestMove, bestValue => (bestMove, bestValue)
  | move :: ms, bestMove, bestValue =>
      let value := minimax G d (G.apply p move) (!isMaximizing) ⊥ ⊤
      if isMaximizing then
        if bestValue < value then bestFold G d isMaximizing p ms (some move) value
        else bestFold G d isMaximizing p ms bestMove bestValue
      else
        if value < bestValue then bestFold G d isMaximizing p ms (some move) value
        else bestFold G d isMaximizing p ms bestMove bestValue

/-- `getBestMove()`: depth from the difficulty, maximizing iff White is
to move, `bestValue` initialised to `∓Infinity`, candidates examined in
the order of `shuffled` (the source shuffles `game.moves()` with
`Math.random`; the permutation is injected here).  Returns the selected
move together with the root `bestValue`. -/
def getBestMove (G : Game) (difficulty : Difficulty) (p : G.Pos)
    (shuffled : List Mv) : Option Mv × Val :=
  let depth := getSearchDepth difficulty
  let isMaximizing := decide (G.turn p = Color.w)
  bestFold G (depth - 1) isMaximizing p shuffled none
    (if isMaximizing then ⊥ else ⊤)

/-- The engine's mutable `this.game` object: the current position plus
the position stack that `undo()` pops. -/
def gmove (G : Game) (st : G.Pos × List G.Pos) (m : Mv) : G.Pos × List G.Pos :=
  (G.apply st.1 m, st.1 :: st.2)

/-- `game.undo()`: restore the previous position (a no-op on an empty
history, as in chess.js). -/
def gundo (G : Game) : G.Pos × List G.Pos → G.Pos × List G.Pos
  | (p, []) => (p, [])
  | (_, q :: h) => (q, h)

/-- Stateful maximizing loop: `game.move(m)`, recurse, `game.undo()`,
update `maxEval`/`alpha`, break on `beta <= alpha` — the undo happens
before the break test, exactly as in the source. -/
def abMaxLoopS (G : Game)
    (f : G.Pos × List G.Pos → Val → Val → Val × (G.Pos × List G.Pos)) :
    List Mv → G.Pos × List G.Pos → Val → Val → Val → Val × (G.Pos × List G.Pos)
  | [], st, maxEval, _, _ => (maxEval, st)
  | move :: ms, st, maxEval, alpha, beta =>
      let r := f (gmove G st move) alpha beta
      let st' := gundo G r.2
      let maxEval' := max maxEval r.1
      let alpha' := max alpha r.1
      if beta ≤ alpha' then (maxEval', st')
      else abMaxLoopS G f ms st' maxEval' alpha' beta

/-- Stateful minimizing loop. -/
def abMinLoopS (G : Game)
    (f : G.Pos × List G.Pos → Val → Val → Val × (G.Pos × List G.Pos)) :
    List Mv → G.Pos × List G.Pos → Val → Val → Val → Val × (G.Pos × List G.Pos)
  | [], st, minEval, _, _ => (minEval, st)
  | move :: ms, st, minEval, alpha, beta =>
      let r := f (gmove G st move) alpha beta
      let st' := gundo G r.2
      let minEval' := min minEval r.1
      let beta' := min beta r.1
      if beta' ≤ alpha then (minEval', st')
      else abMinLoopS G f ms st' minEval' alpha beta'

/-- `minimax` exactly as written in the source: the shared `this.game`
object is threaded through, each candidate applied with `game.move` and
reverted with `game.undo`. -/
def minimaxS (G : Game) :
    ℕ → G.Pos × List G.Pos → Bool → Val → Val → Val × (G.Pos × List G.Pos)
  | 0, st, _, _, _ => (evaluateBoard G st.1, st)
  | d + 1, st, isMaximizing, alpha, beta =>
      if G.isGameOver st.1 then (evaluateBoard G st.1, st)
      else if isMaximizing then
        abMaxLoopS G (fun st a b => minimaxS G d st false a b)
          (G.moves st.1) st ⊥ alpha beta
      else
        abMinLoopS G (fun st a b => minimaxS G d st true a b)
          (G.moves st.1) st ⊤ alpha beta

/-- The candidate loop of `getBestMove()` with the mutable game object
threaded through (move, search, undo for each candidate). -/
def bestFoldS (G : Game) (d : ℕ) (isMaximizing : Bool) :
    List Mv → G.Pos × List G.Pos → Option Mv → Val →
      (Option Mv × Val) × (G.Pos × List G.Pos)
  | [], st, bestMove, bestValue => ((bestMove, bestValue), st)
  | move :: ms, st, bestMove, bestValue =>
      let r := minimaxS G d (gmove G st move) (!isMaximizing) ⊥ ⊤
      let st' := gundo G r.2
      if isMaximizing then
        if bestValue < r.1 then bestFoldS G d isMaximizing ms st' (some move) r.1
        else bestFoldS G d isMaximizing ms st' bestMove bestValue
      else
        if r.1 < bestValue then bestFoldS G d isMaximizing ms st' (some move) r.1
        else bestFoldS G d isMaximizing ms st' bestMove bestValue

/-- `getBestMove()` acting on the shared game object. -/
def getBestMoveS (G : Game) (difficulty : Difficulty)
    (st : G.Pos × List G.Pos) (shuffled : List Mv) :
    (Option Mv × Val) × (G.Pos × List G.Pos) :=
  let depth := getSearchDepth difficulty
  let isMaximizing := decide (G.turn st.1 = Color.w)
  bestFoldS G (depth - 1) isMaximizing shuffled st none
    (if isMaximizing then ⊥ else ⊤)

/-- One invocation of `minimax`: the position it is called on, its
remaining depth, its maximizing flag and its `alpha`/`beta` window. -/
structure Call (G : Game) where
  pos : G.Pos
  depth : ℕ
  isMaximizing : Bool
  alpha : Val
  beta : Val

instance (G : Game) [DecidableEq G.Pos] : DecidableEq (Call G) :=
  fun a b =>
    decidable_of_iff
      (a.pos = b.pos ∧ a.depth = b.depth ∧ a.isMaximizing = b.isMaximizing
        ∧ a.alpha = b.alpha ∧ a.beta = b.beta)
      (by cases a; cases b; simp)

/-- Maximizing loop instrumented to collect the `minimax` invocations
made below it (same control flow as `abMaxLoop`). -/
def abMaxLoopT (G : Game) (f : G.Pos → Val → Val → Val × List (Call G)) :
    List Mv → G.Pos → Val → Val → Val → Val × List (Call G)
  | [], _, maxEval, _, _ => (maxEval, [])
  | move :: ms, p, maxEval, alpha, beta =>
      let r := f (G.apply p move) alpha beta
      let maxEval' := max maxEval r.1
      let alpha' := max alpha r.1
      if beta ≤ alpha' then (maxEval', r.2)
      else
        let rest := abMaxLoopT G f ms p maxEval' alpha' beta
        (rest.1, r.2 ++ rest.2)

/-- Minimizing loop instrumented to collect the `minimax` invocations
made below it (same control flow as `abMinLoop`). -/
def abMinLoopT (G : Game) (f : G.Pos → Val → Val → Val × List (Call G)) :
    List Mv → G.Pos → Val → Val → Val → Val × List (Call G)
  | [], _, minEval, _, _ => (minEval, [])
  | move :: ms, p, minEval, alpha, beta =>
      let r := f (G.apply p move) alpha beta
      let minEval' := min minEval r.1
      let beta' := min beta r.1
      if beta' ≤ alpha then (minEval', r.2)
      else
        let rest := abMinLoopT G f ms p minEval' alpha beta'
        (rest.1, r.2 ++ rest.2)

/-- `minimax` instrumented to return, along with its value, the list of
all `minimax` invocations it performs (itself included), each with the
window it receives. -/
def minimaxT (G : Game) : ℕ → G.Pos → Bool → Val → Val → Val × List (Call G)
  | 0, p, isMaximizing, alpha, beta =>
      (evaluateBoard G p, [⟨p, 0, isMaximizing, alpha, beta⟩])
  | d + 1, p, isMaximizing, alpha, beta =>
      if G.isGameOver p then (evaluateBoard G p, [⟨p, d + 1, isMaximizing, alpha, beta⟩])
      else if isMaximizing then
        let r := abMaxLoopT G (fun q a b => minimaxT G d q false a b)
          (G.moves p) p ⊥ alpha beta
        (r.1, ⟨p, d + 1, isMaximizing, alpha, beta⟩ :: r.2)
      else
        let r := abMinLoopT G (fun q a b => minimaxT G d q true a b)
          (G.moves p) p ⊤ alpha beta
        (r.1, ⟨p, d + 1, isMaximizing, alpha, beta⟩ :: r.2)

/-- The candidate loop of `getBestMove()` instrumented to collect the
`minimax` invocations of the whole search. -/
def bestFoldT (G : Game) (d : ℕ) (isMaximizing : Bool) (p : G.Pos) :
    List Mv → Option Mv → Val → (Option Mv × Val) × List (Call G)
  | [], bestMove, bestValue => ((bestMove, bestValue), [])
  | move :: ms, bestMove, bestValue =>
      let r := minimaxT G d (G.apply p move) (!isMaximizing) ⊥ ⊤
      let next :=
        if isMaximizing then
          if bestValue < r.1 then (some move, r.1) else (bestMove, bestValue)
        else
          if r.1 < bestValue then (some move, r.1) else (bestMove, bestValue)
      let rest := bestFoldT G d isMaximizing p ms next.1 next.2
      (rest.1, r.2 ++ rest.2)

/-- `getBestMove()` instrumented to collect every `minimax` invocation of
the search it performs. -/
def getBestMoveT (G : Game) (difficulty : Difficulty) (p : G.Pos)
    (shuffled : List Mv) : (Option Mv × Val) × List (Call G) :=
  let depth := getSearchDepth difficulty
  let isMaximizing := decide (G.turn p = Color.w)
  bestFoldT G (depth - 1) isMaximizing p shuffled none
    (if isMaximizing then ⊥ else ⊤)

/-- The session state owned by `ChessEngine`: the current position and
the applied-move history (each entry keeps the position it was played
from, which is what `undo` restores). -/
structure Session (G : Game) where
  pos : G.Pos
  history : List (G.Pos × Mv)

/-- The Rules Engine accepts `(from, to, promotion)` in this position. -/
abbrev IsLegal (G : Game) (p : G.Pos) (src dst : Square) (promo : Pc) : Prop :=
  (G.tryMove p src dst promo).isSome = true

/-- `makeMove(from, to, promotion?)`: submit
`{from, to, promotion: promotion || 'q'}` to the rules engine; on success
return the move and advance the session, on the engine's rejection
(chess.js throws, caught) return `null` with the session untouched. -/
def makeMove (G : Game) (st : Session G) (src dst : Square)
    (promotion : Option Pc) : Option Mv × Session G :=
  match G.tryMove st.pos src dst (promotion.getD Pc.q) with
  | some (m, p') => (some m, ⟨p', st.history ++ [(st.pos, m)]⟩)
  | none => (none, st)

/-- The sigmoid of `getWinProbability`: `1 / (1 + 10^(-evaluation/400))`,
with the JavaScript limit values at `evaluation = ∓Infinity` (0 and 1). -/
noncomputable def sigmoidOf (evaluation : Val) : ℝ :=
  WithBot.recBotCoe 0
    (fun v => WithTop.recTopCoe 1
      (fun e : ℤ => 1 / (1 + (10 : ℝ) ^ (-(e : ℝ) / 400))) v)
    evaluation

/-- `getWinProbability()`: evaluate, then the terminal overrides
(checkmate → 0/100 against the side to move, draw → 50/50), otherwise
`whiteWin = round(sigmoid * 100)` and black the complement to 100. -/
noncomputable def getWinProbability (G : Game) (p : G.Pos) : ℤ × ℤ :=
  let evaluation := evaluateBoard G p
  if G.isCheckmate p then
    if G.turn p = Color.w then (0, 100) else (100, 0)
  else if G.isDraw p then (50, 50)
  else
    let sigmoid := sigmoidOf evaluation
    let whiteWin := round (sigmoid * 100)
    (whiteWin, 100 - whiteWin)

/-- A quiet move towards the square named `dst`. -/
def cexMv (dst : Square) : Mv := ⟨"", dst, Color.w, none, none⟩

/-- A board whose only piece is a white pawn on the top-left square
(material 100, table bonus 0). -/
def boardP100 : Board := [[some ⟨Pc.p, Color.w⟩]]

/-- A board whose only piece is a black pawn on the top-left square
(material −100, mirrored table bonus 0). -/
def boardM100 : Board := [[some ⟨Pc.p, Color.b⟩]]

/-- A small rules-engine state space on which the hard-difficulty search
opens a narrowed window: position 0 (White to move) has the single move
to 1; 1 branches to 2 and 3; 2 leads to the leaf 4 (score −100); 3 leads
to the leaves 5 (score 0) and 6 (score 100).  No position is terminal. -/
abbrev cexGame : Game where
  Pos := ℕ
  moves p :=
    if p = 0 then [cexMv "n1"]
    else if p = 1 then [cexMv "n2", cexMv "n3"]
    else if p = 2 then [cexMv "n4"]
    else if p = 3 then [cexMv "n5", cexMv "n6"]
    else []
  apply _ m :=
    if m.dst = "n1" then 1
    else if m.dst = "n2" then 2
    else if m.dst = "n3" then 3
    else if m.dst = "n4" then 4
    else if m.dst = "n5" then 5
    else 6
  isGameOver _ := false
  isCheckmate _ := false
  isStalemate _ := false
  isDraw _ := false
  turn _ := Color.w
  board p := if p = 4 then boardM100 else if p = 6 then boardP100 else []
  tryMove _ _ _ _ := none

/-- A rules-engine state space in which White's only legal move walks
into checkmate against White: position 0 (White to move) has one move,
to position 1, where White is checkmated. -/
abbrev mateTrapGame : Game where
  Pos := ℕ
  moves p := if p = 0 then [cexMv "n1"] else []
  apply _ m := if m.dst = "n1" then 1 else 0
  isGameOver p := p = 1
  isCheckmate p := p = 1
  isStalemate _ := false
  isDraw _ := false
  turn _ := Color.w
  board _ := []
  tryMove _ _ _ _ := none

/-- A rules-engine state reporting a stalemate (which chess.js also
reports as a draw), Black to move. -/
abbrev stalemateGame : Game where
  Pos := Unit
  moves _ := []
  apply _ _ := ()
  isGameOver _ := true
  isCheckmate _ := false
  isStalemate _ := true
  isDraw _ := true
  turn _ := Color.b
  board _ := []
  tryMove _ _ _ _ := none

/-- A rules-engine state reporting checkmate with White to move (White
is the mated side). -/
abbrev checkmateGame : Game where
  Pos := Unit
  moves _ := []
  apply _ _ := ()
  isGameOver _ := true
  isCheckmate _ := true
  isStalemate _ := false
  isDraw _ := false
  turn _ := Color.w
  board _ := []
  tryMove _ _ _ _ := none

/-- The move record of a queening promotion `e7 → e8`. -/
def promoMv : Mv := ⟨"e7", "e8", Color.w, none, some Pc.q⟩

/-- A rules-engine state space with a legal queening promotion: in
position 0 the input `(e7, e8, q)` is accepted, everything else is
rejected. -/
abbrev promoGame : Game where
  Pos := ℕ
  moves p := if p = 0 then [promoMv] else []
  apply _ _ := 1
  isGameOver _ := false
  isCheckmate _ := false
  isStalemate _ := false
  isDraw _ := false
  turn _ := Color.w
  board _ := []
  tryMove p src dst promo :=
    if p = 0 ∧ src = "e7" ∧ dst = "e8" ∧ promo = Pc.q then some (promoMv, 1) else none

/-- The pieces appearing in `captured` fields of history entries made by
side `c` itself, in chronological order. -/
def capturedBy (c : Color) (history : List Mv) : List Pc :=
  history.filterMap (fun m => if m.color = c then m.captured else none)

/-- Fail-soft consistency of an alpha-beta result `r` with the true
minimax value `v` inside the window `(a, b)`: failing low bounds `v`
from above, failing high bounds it from below, and a result strictly
inside the window is exact. -/
def Approx (a b v r : Val) : Prop :=
  (r ≤ a → v ≤ r) ∧ (b ≤ r → r ≤ v) ∧ (a < r → r < b → r = v)

lemma getCapturedPieces_foldl (history : List Mv) :
    ∀ acc : List Pc × List Pc,
      history.foldl
        (fun acc move =>
          match move.captured with
          | some c =>
              if move.color = Color.w then (acc.1 ++ [c], acc.2)
              else (acc.1, acc.2 ++ [c])
          | none => acc)
        acc
      = (acc.1 ++ capturedBy Color.w history, acc.2 ++ capturedBy Color.b history) := by
  induction history with
  | nil => intro acc; simp [capturedBy]
  | cons m t ih =>
      intro acc
      match hcap : m.captured with
      | none =>
          simp only [List.foldl_cons, hcap]
          rw [ih]
          cases hc : m.color <;> simp [capturedBy, hcap, hc]
      | some c =>
          simp only [List.foldl_cons, hcap]
          cases hc : m.color with
          | w =>
              rw [if_pos (by simp [hc]), ih]
              simp [capturedBy, hcap, hc]
          | b =>
              rw [if_neg (by simp [hc]), ih]
              simp [capturedBy, hcap, hc]

lemma capturedBy_length (c : Color) (history : List Mv) :
    (capturedBy c history).length
      = (history.filter (fun m => decide (m.color = c) && m.captured.isSome)).length := by
  induction history with
  | nil => rfl
  | cons m t ih =>
      by_cases hc : m.color = c
      · match hcap : m.captured with
        | none => simpa [capturedBy, hc, hcap] using ih
        | some x => simpa [capturedBy, hc, hcap] using ih
      · simpa [capturedBy, hc] using ih

lemma foldl_max_mono (v : Mv → Val) : ∀ (l : List Mv) {s s' : Val}, s ≤ s' →
    List.foldl (fun s m => max s (v m)) s l ≤ List.foldl (fun s m => max s (v m)) s' l := by
  intro l
  induction l with
  | nil => intro s s' h; exact h
  | cons m t ih => intro s s' h; exact ih (max_le_max h le_rfl)

lemma le_foldl_max (v : Mv → Val) : ∀ (l : List Mv) (s : Val),
    s ≤ List.foldl (fun s m => max s (v m)) s l := by
  intro l
  induction l with
  | nil => intro s; exact le_rfl
  | cons m t ih => intro s; exact le_trans (le_max_left _ _) (ih (max s (v m)))

lemma foldl_max_eq (v : Mv → Val) : ∀ (l : List Mv) (s : Val),
    List.foldl (fun s m => max s (v m)) s l
      = max s (List.foldl (fun s m => max s (v m)) ⊥ l) := by
  intro l
  induction l with
  | nil => intro s; exact (max_eq_left bot_le).symm
  | cons m t ih =>
      intro s
      simp only [List.foldl_cons]
      rw [ih (max s (v m)), ih (max ⊥ (v m)), max_eq_right (bot_le : (⊥ : Val) ≤ v m),
        max_assoc]

lemma foldl_min_mono (v : Mv → Val) : ∀ (l : List Mv) {s s' : Val}, s ≤ s' →
    List.foldl (fun s m => min s (v m)) s l ≤ List.foldl (fun s m => min s (v m)) s' l := by
  intro l
  induction l with
  | nil => intro s s' h; exact h
  | cons m t ih => intro s s' h; exact ih (min_le_min h le_rfl)

lemma foldl_min_le (v : Mv → Val) : ∀ (l : List Mv) (s : Val),
    List.foldl (fun s m => min s (v m)) s l ≤ s := by
  intro l
  induction l with
  | nil => intro s; exact le_rfl
  | cons m t ih => intro s; exact le_trans (ih (min s (v m))) (min_le_left _ _)

lemma foldl_min_eq (v : Mv → Val) : ∀ (l : List Mv) (s : Val),
    List.foldl (fun s m => min s (v m)) s l
      = min s (List.foldl (fun s m => min s (v m)) ⊤ l) := by
  intro l
  induction l with
  | nil => intro s; exact (min_eq_left le_top).symm
  | cons m t ih =>
      intro s
      simp only [List.foldl_cons]
      rw [ih (min s (v m)), ih (min ⊤ (v m)), min_eq_right (le_top : v m ≤ (⊤ : Val)),
        min_assoc]

/-- Fail-soft correctness of the maximizing alpha-beta loop, relative to
the plain running maximum `V := foldl max acc (v ·)`: the loop's result
fails low only below `V`, fails high only below `max a V`, and is exact
strictly inside the window. -/
lemma abMaxLoop_approx (f : Mv → Val → Val → Val) (v : Mv → Val) :
    ∀ (ms : List Mv) (acc a b : Val),
      (∀ m ∈ ms, ∀ a' b' : Val, a' < b' → Approx a' b' (v m) (f m a' b')) →
      acc ≤ a → a < b →
      (abMaxLoop f ms acc a b ≤ a →
        List.foldl (fun s m => max s (v m)) acc ms ≤ abMaxLoop f ms acc a b)
      ∧ (b ≤ abMaxLoop f ms acc a b →
          abMaxLoop f ms acc a b ≤ max a (List.foldl (fun s m => max s (v m)) acc ms))
      ∧ (a < abMaxLoop f ms acc a b → abMaxLoop f ms acc a b < b →
          abMaxLoop f ms acc a b = List.foldl (fun s m => max s (v m)) acc ms) := by
  intro ms
  induction ms with
  | nil =>
      intro acc a b _ hacc hab
      exact ⟨fun _ => le_rfl, fun _ => le_max_right _ _, fun _ _ => rfl⟩
  | cons m t ih =>
      intro acc a b hf hacc hab
      obtain ⟨hlo, hhi, hex⟩ := hf m (List.mem_cons_self m t) a b hab
      have hft : ∀ m' ∈ t, ∀ a' b' : Val, a' < b' → Approx a' b' (v m') (f m' a' b') :=
        fun m' hm' => hf m' (List.mem_cons_of_mem m hm')
      set w := f m a b with hw
      have hunfold : abMaxLoop f (m :: t) acc a b
          = if b ≤ max a w then max acc w
            else abMaxLoop f t (max acc w) (max a w) b := rfl
      have hVcons : List.foldl (fun s m => max s (v m)) acc (m :: t)
          = List.foldl (fun s m => max s (v m)) (max acc (v m)) t := rfl
      by_cases hbreak : b ≤ max a w
      · -- beta cutoff: the loop returns `max acc w` with `b ≤ w ≤ v m`
        have hwb : b ≤ w := by
          rcases max_cases a w with ⟨he, _⟩ | ⟨he, _⟩
          · exact absurd (hbreak.trans he.le) (not_le.mpr hab)
          · exact hbreak.trans he.le
        have hwv : w ≤ v m := hhi hwb
        rw [hunfold, if_pos hbreak]
        refine ⟨fun hle => ?_, fun _ => ?_, fun _ hlt => ?_⟩
        · exact absurd ((hwb.trans (le_max_right acc w)).trans hle) (not_le.mpr hab)
        · have h1 : acc ≤ max a (List.foldl (fun s m => max s (v m)) acc (m :: t)) :=
            hacc.trans (le_max_left _ _)
          have h2 : w ≤ max a (List.foldl (fun s m => max s (v m)) acc (m :: t)) := by
            refine (hwv.trans ?_).trans (le_max_right _ _)
            rw [hVcons]
            exact (le_max_right acc (v m)).trans (le_foldl_max v t _)
          exact max_le h1 h2
        · exact absurd hlt (not_lt.mpr (hwb.trans (le_max_right acc w)))
      · -- no cutoff: recurse with `acc' = max acc w`, `a' = max a w`
        have hab' : max a w < b := not_le.mp hbreak
        have hacc' : max acc w ≤ max a w := max_le_max hacc le_rfl
        obtain ⟨ih1, ih2, ih3⟩ := ih (max acc w) (max a w) b hft hacc' hab'
        rw [hunfold, if_neg hbreak]
        set r := abMaxLoop f t (max acc w) (max a w) b with hr
        set M := List.foldl (fun s m => max s (v m)) ⊥ t with hM
        have hV' : List.foldl (fun s m => max s (v m)) (max acc w) t = max (max acc w) M :=
          foldl_max_eq v t _
        have hV : List.foldl (fun s m => max s (v m)) acc (m :: t)
            = max (max acc (v m)) M := by rw [hVcons]; exact foldl_max_eq v t _
        by_cases hwa : w ≤ a
        · -- the child failed low: `v m ≤ w ≤ a`
          have hvm : v m ≤ w := hlo hwa
          have haw : max a w = a := max_eq_left hwa
          rw [haw] at ih1 ih2 ih3 hab'
          refine ⟨fun hle => ?_, fun hge => ?_, fun hgt hlt => ?_⟩
          · rw [hV]
            refine le_trans ?_ (ih1 hle)
            rw [hV']
            exact max_le_max (max_le_max le_rfl hvm) le_rfl
          · have h2 := ih2 hge
            rw [hV'] at h2
            refine h2.trans (max_le (le_max_left _ _) (max_le (max_le ?_ ?_) ?_))
            · exact hacc.trans (le_max_left _ _)
            · exact hwa.trans (le_max_left _ _)
            · rw [hV]; exact (le_max_right _ _).trans (le_max_right _ _)
          · have hrM : r = M := by
              have he := ih3 hgt hlt
              rw [hV'] at he
              rcases max_cases (max acc w) M with ⟨hm, _⟩ | ⟨hm, _⟩
              · rw [hm] at he
                exact absurd (he.le.trans (max_le hacc hwa)) (not_le.mpr hgt)
              · rw [hm] at he; exact he
            have hacm : max acc (v m) ≤ a := max_le hacc (hvm.trans hwa)
            rw [hV, max_eq_right (hacm.trans (hrM ▸ hgt).le)]
            exact hrM
        · -- the child's value is exact: `a < w < b`, `w = v m`
          have haw : a < w := not_le.mp hwa
          have hwb' : w < b := lt_of_le_of_lt (le_max_right a w) hab'
          have hweq : w = v m := hex haw hwb'
          have hVV' : List.foldl (fun s m => max s (v m)) acc (m :: t)
              = List.foldl (fun s m => max s (v m)) (max acc w) t := by
            rw [hVcons, ← hweq]
          have hvmV : v m ≤ List.foldl (fun s m => max s (v m)) acc (m :: t) := by
            rw [hVcons]
            exact (le_max_right acc (v m)).trans (le_foldl_max v t _)
          refine ⟨fun hle => ?_, fun hge => ?_, fun hgt hlt => ?_⟩
          · rw [hVV']
            exact ih1 (hle.trans (le_max_left a w))
          · have h2 := ih2 hge
            refine h2.trans (max_le (max_le (le_max_left _ _) ?_) ?_)
            · rw [hweq]; exact hvmV.trans (le_max_right _ _)
            · rw [← hVV']; exact le_max_right _ _
          · by_cases hrw : r ≤ max a w
            · refine le_antisymm (hrw.trans ?_) ?_
              · rw [max_eq_right haw.le, hweq]; exact hvmV
              · rw [hVV']; exact ih1 hrw
            · rw [hVV']
              exact ih3 (not_le.mp hrw) hlt

/-- Fail-soft correctness of the minimizing alpha-beta loop, the order
dual of `abMaxLoop_approx`. -/
lemma abMinLoop_approx (f : Mv → Val → Val → Val) (v : Mv → Val) :
    ∀ (ms : List Mv) (acc a b : Val),
      (∀ m ∈ ms, ∀ a' b' : Val, a' < b' → Approx a' b' (v m) (f m a' b')) →
      b ≤ acc → a < b →
      (b ≤ abMinLoop f ms acc a b →
        abMinLoop f ms acc a b ≤ List.foldl (fun s m => min s (v m)) acc ms)
      ∧ (abMinLoop f ms acc a b ≤ a →
          min b (List.foldl (fun s m => min s (v m)) acc ms) ≤ abMinLoop f ms acc a b)
      ∧ (a < abMinLoop f ms acc a b → abMinLoop f ms acc a b < b →
          abMinLoop f ms acc a b = List.foldl (fun s m => min s (v m)) acc ms) := by
  intro ms
  induction ms with
  | nil =>
      intro acc a b _ hacc hab
      exact ⟨fun _ => le_rfl, fun _ => min_le_right _ _, fun _ _ => rfl⟩
  | cons m t ih =>
      intro acc a b hf hacc hab
      obtain ⟨hlo, hhi, hex⟩ := hf m (List.mem_cons_self m t) a b hab
      have hft : ∀ m' ∈ t, ∀ a' b' : Val, a' < b' → Approx a' b' (v m') (f m' a' b') :=
        fun m' hm' => hf m' (List.mem_cons_of_mem m hm')
      set w := f m a b with hw
      have hunfold : abMinLoop f (m :: t) acc a b
          = if min b w ≤ a then min acc w
            else abMinLoop f t (min acc w) a (min b w) := rfl
      have hVcons : List.foldl (fun s m => min s (v m)) acc (m :: t)
          = List.foldl (fun s m => min s (v m)) (min acc (v m)) t := rfl
      by_cases hbreak : min b w ≤ a
      · -- alpha cutoff: the loop returns `min acc w` with `v m ≤ w ≤ a`
        have hwa : w ≤ a := by
          rcases min_cases b w with ⟨he, _⟩ | ⟨he, _⟩
          · exact absurd (he.ge.trans hbreak) (not_le.mpr hab)
          · rw [he] at hbreak; exact hbreak
        have hwv : v m ≤ w := hlo hwa
        rw [hunfold, if_pos hbreak]
        refine ⟨fun hge => ?_, fun _ => ?_, fun hgt _ => ?_⟩
        · exact absurd ((hge.trans (min_le_right acc w)).trans hwa) (not_le.mpr hab)
        · have h1 : min b (List.foldl (fun s m => min s (v m)) acc (m :: t)) ≤ acc :=
            (min_le_left _ _).trans hacc
          have h2 : min b (List.foldl (fun s m => min s (v m)) acc (m :: t)) ≤ w := by
            refine ((min_le_right _ _).trans ?_).trans hwv
            rw [hVcons]
            exact (foldl_min_le v t _).trans (min_le_right acc (v m))
          exact le_min h1 h2
        · exact absurd hgt (not_lt.mpr ((min_le_right acc w).trans hwa))
      · -- no cutoff: recurse with `acc' = min acc w`, `b' = min b w`
        have hab' : a < min b w := not_le.mp hbreak
        have hacc' : min b w ≤ min acc w := min_le_min hacc le_rfl
        obtain ⟨ih1, ih2, ih3⟩ := ih (min acc w) a (min b w) hft hacc' hab'
        rw [hunfold, if_neg hbreak]
        set r := abMinLoop f t (min acc w) a (min b w) with hr
        set M := List.foldl (fun s m => min s (v m)) ⊤ t with hM
        have hV' : List.foldl (fun s m => min s (v m)) (min acc w) t = min (min acc w) M :=
          foldl_min_eq v t _
        have hV : List.foldl (fun s m => min s (v m)) acc (m :: t)
            = min (min acc (v m)) M := by rw [hVcons]; exact foldl_min_eq v t _
        by_cases hwb : b ≤ w
        · -- the child failed high: `b ≤ w ≤ v m`
          have hvm : w ≤ v m := hhi hwb
          have hbw : min b w = b := min_eq_left hwb
          rw [hbw] at ih1 ih2 ih3 hab'
          refine ⟨fun hge => ?_, fun hle => ?_, fun hgt hlt => ?_⟩
          · rw [hV]
            refine le_trans (ih1 hge) ?_
            rw [hV']
            exact min_le_min (min_le_min le_rfl hvm) le_rfl
          · have h2 := ih2 hle
            rw [hV'] at h2
            refine le_trans (le_min (min_le_left _ _) (le_min (le_min ?_ ?_) ?_)) h2
            · exact (min_le_left _ _).trans hacc
            · exact (min_le_left _ _).trans hwb
            · rw [hV]; exact (min_le_right _ _).trans (min_le_right _ _)
          · have hrM : r = M := by
              have he := ih3 hgt hlt
              rw [hV'] at he
              rcases min_cases (min acc w) M with ⟨hm, _⟩ | ⟨hm, _⟩
              · rw [hm] at he
                exact absurd ((le_min hacc hwb).trans he.ge) (not_le.mpr hlt)
              · rw [hm] at he; exact he
            have hacm : b ≤ min acc (v m) := le_min hacc (hwb.trans hvm)
            rw [hV, min_eq_right ((hrM ▸ hlt).le.trans hacm)]
            exact hrM
        · -- the child's value is exact: `a < w < b`, `w = v m`
          have hwa' : a < w := lt_of_lt_of_le hab' (min_le_right b w)
          have hweq : w = v m := hex hwa' (not_le.mp hwb)
          have hVV' : List.foldl (fun s m => min s (v m)) acc (m :: t)
              = List.foldl (fun s m => min s (v m)) (min acc w) t := by
            rw [hVcons, ← hweq]
          have hvmV : List.foldl (fun s m => min s (v m)) acc (m :: t) ≤ v m := by
            rw [hVcons]
            exact (foldl_min_le v t _).trans (min_le_right acc (v m))
          refine ⟨fun hge => ?_, fun hle => ?_, fun hgt hlt => ?_⟩
          · rw [hVV']
            exact ih1 ((min_le_left b w).trans hge)
          · have h2 := ih2 hle
            refine le_trans (le_min (le_min (min_le_left _ _) ?_) ?_) h2
            · rw [hweq]; exact (min_le_right _ _).trans hvmV
            · rw [← hVV']; exact min_le_right _ _
          · by_cases hrw : min b w ≤ r
            · refine le_antisymm ?_ (hvmV.trans ?_)
              · rw [hVV']; exact ih1 hrw
              · rw [← hweq]; exact (min_eq_right (not_le.mp hwb).le) ▸ hrw
            · rw [hVV']
              exact ih3 hgt (not_le.mp hrw)

lemma le_of_le_max_between {a b r V : Val} (hab : a < b) (hge : b ≤ r)
    (h : r ≤ max a V) : r ≤ V := by
  rcases le_total a V with hav | hav
  · rwa [max_eq_right hav] at h
  · rw [max_eq_left hav] at h
    exact absurd (hge.trans h) (not_le.mpr hab)

lemma le_of_min_le_between {a b r V : Val} (hab : a < b) (hle : r ≤ a)
    (h : min b V ≤ r) : V ≤ r := by
  rcases le_total b V with hbv | hbv
  · rw [min_eq_left hbv] at h
    exact absurd (h.trans hle) (not_le.mpr hab)
  · rwa [min_eq_right hbv] at h

/-- Every `minimax` call is fail-soft consistent with the unpruned
minimax value of the same position, depth and role, for every window. -/
lemma minimax_approx (G : Game) :
    ∀ (d : ℕ) (p : G.Pos) (isMaximizing : Bool) (a b : Val), a < b →
      Approx a b (minimaxPlain G d p isMaximizing)
        (minimax G d p isMaximizing a b) := by
  intro d
  induction d with
  | zero =>
      intro p maxi a b _
      exact ⟨fun _ => le_rfl, fun _ => le_rfl, fun _ _ => rfl⟩
  | succ d ih =>
      intro p maxi a b hab
      by_cases hgo : G.isGameOver p
      · have h1 : minimax G (d + 1) p maxi a b = evaluateBoard G p := by
          show (if G.isGameOver p then evaluateBoard G p else _) = _
          rw [if_pos hgo]
        have h2 : minimaxPlain G (d + 1) p maxi = evaluateBoard G p := by
          show (if G.isGameOver p then evaluateBoard G p else _) = _
          rw [if_pos hgo]
        rw [h1, h2]
        exact ⟨fun _ => le_rfl, fun _ => le_rfl, fun _ _ => rfl⟩
      · cases maxi with
        | true =>
            have h1 : minimax G (d + 1) p true a b
                = abMaxLoop (fun m a b => minimax G d (G.apply p m) false a b)
                    (G.moves p) ⊥ a b := by
              show (if G.isGameOver p then _ else _) = _
              rw [if_neg hgo]
              rfl
            have h2 : minimaxPlain G (d + 1) p true
                = (G.moves p).foldl
                    (fun acc m => max acc (minimaxPlain G d (G.apply p m) false)) ⊥ := by
              show (if G.isGameOver p then _ else _) = _
              rw [if_neg hgo]
              rfl
            rw [h1, h2]
            obtain ⟨c1, c2, c3⟩ := abMaxLoop_approx
              (fun m a b => minimax G d (G.apply p m) false a b)
              (fun m => minimaxPlain G d (G.apply p m) false)
              (G.moves p) ⊥ a b
              (fun m _ a' b' hab' => ih (G.apply p m) false a' b' hab')
              bot_le hab
            exact ⟨c1, fun hge => le_of_le_max_between hab hge (c2 hge), c3⟩
        | false =>
            have h1 : minimax G (d + 1) p false a b
                = abMinLoop (fun m a b => minimax G d (G.apply p m) true a b)
                    (G.moves p) ⊤ a b := by
              show (if G.isGameOver p then _ else _) = _
              rw [if_neg hgo]
              rfl
            have h2 : minimaxPlain G (d + 1) p false
                = (G.moves p).foldl
                    (fun acc m => min acc (minimaxPlain G d (G.apply p m) true)) ⊤ := by
              show (if G.isGameOver p then _ else _) = _
              rw [if_neg hgo]
              rfl
            rw [h1, h2]
            obtain ⟨c1, c2, c3⟩ := abMinLoop_approx
              (fun m a b => minimax G d (G.apply p m) true a b)
              (fun m => minimaxPlain G d (G.apply p m) true)
              (G.moves p) ⊤ a b
              (fun m _ a' b' hab' => ih (G.apply p m) true a' b' hab')
              le_top hab
            exact ⟨fun hle => le_of_min_le_between hab hle (c2 hle), c1, c3⟩

/-- With the full window `(-Infinity, Infinity)` — the only window
`getBestMove` ever opens — alpha-beta minimax coincides exactly with
unpruned minimax. -/
lemma minimax_full_window (G : Game) (d : ℕ) (p : G.Pos) (isMaximizing : Bool) :
    minimax G d p isMaximizing ⊥ ⊤ = minimaxPlain G d p isMaximizing := by
  obtain ⟨h1, h2, h3⟩ := minimax_approx G d p isMaximizing ⊥ ⊤ bot_lt_top
  rcases le_or_lt (minimax G d p isMaximizing ⊥ ⊤) ⊥ with hb | hb
  · have hv := h1 hb
    rw [le_bot_iff.mp hb]
    exact (le_bot_iff.mp (hv.trans hb)).symm
  · rcases le_or_lt ⊤ (minimax G d p isMaximizing ⊥ ⊤) with htp | htp
    · have hv := h2 htp
      rw [top_le_iff.mp htp]
      exact (top_le_iff.mp (htp.trans hv)).symm
    · exact h3 hb htp

lemma foldl_perm_of_comm (f : Val → Mv → Val)
    (hf : ∀ (s : Val) (x y : Mv), f (f s x) y = f (f s y) x) :
    ∀ {l₁ l₂ : List Mv}, l₁.Perm l₂ → ∀ s : Val, l₁.foldl f s = l₂.foldl f s := by
  intro l₁ l₂ h
  induction h with
  | nil => intro s; rfl
  | cons x h ih => intro s; simp only [List.foldl_cons]; exact ih _
  | swap x y l => intro s; simp only [List.foldl_cons]; rw [hf]
  | trans h₁ h₂ ih₁ ih₂ => intro s; rw [ih₁ s, ih₂ s]

lemma bestFold_snd_max (G : Game) (d : ℕ) (p : G.Pos) :
    ∀ (ms : List Mv) (bm : Option Mv) (bv : Val),
      (bestFold G d true p ms bm bv).2
        = ms.foldl (fun s m => max s (minimax G d (G.apply p m) false ⊥ ⊤)) bv := by
  intro ms
  induction ms with
  | nil => intro bm bv; rfl
  | cons m t ih =>
      intro bm bv
      simp only [List.foldl_cons]
      have hu0 : bestFold G d true p (m :: t) bm bv
          = (if bv < minimax G d (G.apply p m) false ⊥ ⊤
              then bestFold G d true p t (some m) (minimax G d (G.apply p m) false ⊥ ⊤)
              else bestFold G d true p t bm bv) := rfl
      by_cases hlt : bv < minimax G d (G.apply p m) false ⊥ ⊤
      · rw [hu0, if_pos hlt, ih, max_eq_right hlt.le]
      · rw [hu0, if_neg hlt, ih, max_eq_left (not_lt.mp hlt)]

lemma bestFold_snd_min (G : Game) (d : ℕ) (p : G.Pos) :
    ∀ (ms : List Mv) (bm : Option Mv) (bv : Val),
      (bestFold G d false p ms bm bv).2
        = ms.foldl (fun s m => min s (minimax G d (G.apply p m) true ⊥ ⊤)) bv := by
  intro ms
  induction ms with
  | nil => intro bm bv; rfl
  | cons m t ih =>
      intro bm bv
      simp only [List.foldl_cons]
      have hu0 : bestFold G d false p (m :: t) bm bv
          = (if minimax G d (G.apply p m) true ⊥ ⊤ < bv
              then bestFold G d false p t (some m) (minimax G d (G.apply p m) true ⊥ ⊤)
              else bestFold G d false p t bm bv) := rfl
      by_cases hlt : minimax G d (G.apply p m) true ⊥ ⊤ < bv
      · rw [hu0, if_pos hlt, ih, min_eq_right hlt.le]
      · rw [hu0, if_neg hlt, ih, min_eq_left (not_lt.mp hlt)]

lemma bestFold_some (G : Game) (d : ℕ) (maxi : Bool) (p : G.Pos) :
    ∀ (ms : List Mv) (m0 : Mv) (bv : Val),
      ((bestFold G d maxi p ms (some m0) bv).1).isSome = true := by
  intro ms
  induction ms with
  | nil => intro m0 bv; rfl
  | cons m t ih =>
      intro m0 bv
      cases maxi with
      | true =>
          have hu0 : bestFold G d true p (m :: t) (some m0) bv
              = (if bv < minimax G d (G.apply p m) false ⊥ ⊤
                  then bestFold G d true p t (some m) (minimax G d (G.apply p m) false ⊥ ⊤)
                  else bestFold G d true p t (some m0) bv) := rfl
          rw [hu0]
          split
          · exact ih _ _
          · exact ih _ _
      | false =>
          have hu0 : bestFold G d false p (m :: t) (some m0) bv
              = (if minimax G d (G.apply p m) true ⊥ ⊤ < bv
                  then bestFold G d false p t (some m) (minimax G d (G.apply p m) true ⊥ ⊤)
                  else bestFold G d false p t (some m0) bv) := rfl
          rw [hu0]
          split
          · exact ih _ _
          · exact ih _ _

lemma bestFold_none_max (G : Game) (d : ℕ) (p : G.Pos) :
    ∀ (ms : List Mv) (bv : Val),
      ((bestFold G d true p ms none bv).1 = none
        ↔ ∀ m ∈ ms, minimax G d (G.apply p m) false ⊥ ⊤ ≤ bv) := by
  intro ms
  induction ms with
  | nil => intro bv; simp [bestFold]
  | cons m t ih =>
      intro bv
      have hu0 : bestFold G d true p (m :: t) none bv
          = (if bv < minimax G d (G.apply p m) false ⊥ ⊤
              then bestFold G d true p t (some m) (minimax G d (G.apply p m) false ⊥ ⊤)
              else bestFold G d true p t none bv) := rfl
      by_cases hlt : bv < minimax G d (G.apply p m) false ⊥ ⊤
      · rw [hu0, if_pos hlt]
        constructor
        · intro h
          exact absurd h (Option.isSome_iff_ne_none.mp (bestFold_some G d true p t m _))
        · intro h
          exact absurd (h m (List.mem_cons_self m t)) (not_le.mpr hlt)
      · rw [hu0, if_neg hlt, ih]
        constructor
        · intro h m' hm'
          rcases List.mem_cons.mp hm' with he | hm''
          · rw [he]; exact not_lt.mp hlt
          · exact h m' hm''
        · intro h m' hm'
          exact h m' (List.mem_cons_of_mem m hm')

lemma bestFold_none_min (G : Game) (d : ℕ) (p : G.Pos) :
    ∀ (ms : List Mv) (bv : Val),
      ((bestFold G d false p ms none bv).1 = none
        ↔ ∀ m ∈ ms, bv ≤ minimax G d (G.apply p m) true ⊥ ⊤) := by
  intro ms
  induction ms with
  | nil => intro bv; simp [bestFold]
  | cons m t ih =>
      intro bv
      have hu0 : bestFold G d false p (m :: t) none bv
          = (if minimax G d (G.apply p m) true ⊥ ⊤ < bv
              then bestFold G d false p t (some m) (minimax G d (G.apply p m) true ⊥ ⊤)
              else bestFold G d false p t none bv) := rfl
      by_cases hlt : minimax G d (G.apply p m) true ⊥ ⊤ < bv
      · rw [hu0, if_pos hlt]
        constructor
        · intro h
          exact absurd h (Option.isSome_iff_ne_none.mp (bestFold_some G d false p t m _))
        · intro h
          exact absurd (h m (List.mem_cons_self m t)) (not_le.mpr hlt)
      · rw [hu0, if_neg hlt, ih]
        constructor
        · intro h m' hm'
          rcases List.mem_cons.mp hm' with he | hm''
          · rw [he]; exact not_lt.mp hlt
          · exact h m' hm''
        · intro h m' hm'
          exact h m' (List.mem_cons_of_mem m hm')

lemma getSearchDepth_succ (difficulty : Difficulty) :
    getSearchDepth difficulty = (getSearchDepth difficulty - 1) + 1 := by
  cases difficulty <;> rfl

/-- C1 (amended): for every rules engine, position and depth, an
alpha-beta `minimax` call with the full window `(-Infinity, Infinity)` —
the only window `getBestMove` opens on the root candidates — returns
exactly the unpruned minimax value, and the root `bestValue` selected by
`getBestMove` over any shuffling of the legal moves equals the unpruned
minimax value of the searched position at the full search depth.
(Interior `minimax` calls with a narrowed window may return a different,
window-bounded value — see the counterexample — without ever affecting
the root value.) -/
theorem alphabeta_value_eq_unpruned (G : Game) :
    (∀ (d : ℕ) (p : G.Pos) (isMaximizing : Bool),
        minimax G d p isMaximizing ⊥ ⊤ = minimaxPlain G d p isMaximizing)
    ∧ ∀ (difficulty : Difficulty) (p : G.Pos) (shuffled : List Mv),
        shuffled.Perm (G.moves p) → G.isGameOver p = false →
        (getBestMove G difficulty p shuffled).2
          = minimaxPlain G (getSearchDepth difficulty) p
              (decide (G.turn p = Color.w)) := by
  refine ⟨fun d p maxi => minimax_full_window G d p maxi, ?_⟩
  intro diff p ms hperm hgo
  have hdep := getSearchDepth_succ diff
  set D := getSearchDepth diff - 1 with hD
  by_cases ht : G.turn p = Color.w
  · have hd : decide (G.turn p = Color.w) = true := decide_eq_true ht
    have hu : getBestMove G diff p ms = bestFold G D true p ms none ⊥ := by
      unfold getBestMove
      rw [hd]
      rfl
    rw [hu, hd, bestFold_snd_max]
    have hfun : (fun s m => max s (minimax G D (G.apply p m) false ⊥ ⊤))
        = fun (s : Val) m => max s (minimaxPlain G D (G.apply p m) false) := by
      funext s m
      rw [minimax_full_window]
    rw [hfun, foldl_perm_of_comm _ (fun s x y => sup_right_comm s _ _) hperm ⊥, hdep]
    have hplain : minimaxPlain G (D + 1) p true
        = (G.moves p).foldl
            (fun acc m => max acc (minimaxPlain G D (G.apply p m) false)) ⊥ := by
      show (if G.isGameOver p then _ else _) = _
      rw [if_neg (by rw [hgo]; exact Bool.false_ne_true)]
      rfl
    exact hplain.symm
  · have hd : decide (G.turn p = Color.w) = false := decide_eq_false ht
    have hu : getBestMove G diff p ms = bestFold G D false p ms none ⊤ := by
      unfold getBestMove
      rw [hd]
      rfl
    rw [hu, hd, bestFold_snd_min]
    have hfun : (fun s m => min s (minimax G D (G.apply p m) true ⊥ ⊤))
        = fun (s : Val) m => min s (minimaxPlain G D (G.apply p m) true) := by
      funext s m
      rw [minimax_full_window]
    rw [hfun, foldl_perm_of_comm _ (fun s x y => inf_right_comm s _ _) hperm ⊤, hdep]
    have hplain : minimaxPlain G (D + 1) p false
        = (G.moves p).foldl
            (fun acc m => min acc (minimaxPlain G D (G.apply p m) true)) ⊤ := by
      show (if G.isGameOver p then _ else _) = _
      rw [if_neg (by rw [hgo]; exact Bool.false_ne_true)]
      rfl
    exact hplain.symm

/-- C1 witness: the hard-difficulty search on the concrete game
`cexGame` selects exactly the unpruned minimax value at the root. -/
theorem alphabeta_value_eq_unpruned_witness :
    (getBestMove cexGame Difficulty.hard 0 (cexGame.moves 0)).2
      = minimaxPlain cexGame (getSearchDepth Difficulty.hard) 0
          (decide (cexGame.turn 0 = Color.w)) :=
  (alphabeta_value_eq_unpruned cexGame).2 Difficulty.hard 0 (cexGame.moves 0)
    (List.Perm.refl _) rfl

/-- C1 counterexample: during `getBestMove` at hard difficulty on
`cexGame` from position 0, the search performs the interior call
`minimax(depth 1, alpha = -Infinity, beta = -100, maximizing)` on
position 3 (the call trace collected by `getBestMoveT` contains it), and
that call returns 0 after a beta cutoff, whereas unpruned minimax of
position 3 at depth 1 is 100.  Hence the value returned by `minimax` at
an interior node does not always equal the unpruned minimax value of the
same position and depth, contradicting the claim as stated. -/
theorem minimax_narrowed_window_differs :
    (⟨3, 1, true, ⊥, Val.fin (-100)⟩ : Call cexGame)
        ∈ (getBestMoveT cexGame Difficulty.hard 0 (cexGame.moves 0)).2
    ∧ minimax cexGame 1 3 true ⊥ (Val.fin (-100)) = Val.fin 0
    ∧ minimaxPlain cexGame 1 3 true = Val.fin 100
    ∧ minimax cexGame 1 3 true ⊥ (Val.fin (-100))
        ≠ minimaxPlain cexGame 1 3 true := by
  refine ⟨by decide, by decide, by decide, by decide⟩

/-- C2 (amended): `getBestMove` returns no move exactly when every
candidate move's search value equals the initial sentinel `bestValue`
(`-Infinity` when maximizing, `Infinity` when minimizing) — the strict
improvement test then never fires.  The move list being empty is one such
case, but not the only one: a nonempty move list whose every value is
`-Infinity` (every White move runs into a forced mate within the search
horizon) also yields no move. -/
theorem getBestMove_none_iff (G : Game) (difficulty : Difficulty) (p : G.Pos)
    (shuffled : List Mv) :
    (getBestMove G difficulty p shuffled).1 = none
      ↔ ∀ m ∈ shuffled,
          minimax G (getSearchDepth difficulty - 1) (G.apply p m)
              (!decide (G.turn p = Color.w)) ⊥ ⊤
            = (if G.turn p = Color.w then (⊥ : Val) else (⊤ : Val)) := by
  by_cases ht : G.turn p = Color.w
  · have hd : decide (G.turn p = Color.w) = true := decide_eq_true ht
    have hu : getBestMove G difficulty p shuffled
        = bestFold G (getSearchDepth difficulty - 1) true p shuffled none ⊥ := by
      unfold getBestMove
      rw [hd]
      rfl
    rw [hu, bestFold_none_max, if_pos ht]
    simp only [hd, Bool.not_true, le_bot_iff]
  · have hd : decide (G.turn p = Color.w) = false := decide_eq_false ht
    have hu : getBestMove G difficulty p shuffled
        = bestFold G (getSearchDepth difficulty - 1) false p shuffled none ⊤ := by
      unfold getBestMove
      rw [hd]
      rfl
    rw [hu, bestFold_none_min, if_neg ht]
    simp only [hd, Bool.not_false, top_le_iff]

/-- C2 counterexample: in `mateTrapGame`, position 0 has one legal move
and the game is not over, yet `getBestMove` at easy difficulty returns
no move, because the move's search value is `-Infinity` (White is mated
in the child) and `-Infinity > -Infinity` fails the strict-improvement
test.  This contradicts "whenever at least one legal move exists, some
move is returned". -/
theorem getBestMove_none_despite_legal_moves :
    mateTrapGame.moves 0 ≠ []
    ∧ mateTrapGame.isGameOver 0 = false
    ∧ (getBestMove mateTrapGame Difficulty.easy 0 (mateTrapGame.moves 0)).1
        = none := by
  refine ⟨by decide, by decide, by decide⟩

lemma gundo_gmove (G : Game) (st : G.Pos × List G.Pos) (m : Mv) :
    gundo G (gmove G st m) = st := rfl

lemma abMaxLoopS_state (G : Game)
    (f : G.Pos × List G.Pos → Val → Val → Val × (G.Pos × List G.Pos))
    (hf : ∀ st a b, (f st a b).2 = st) :
    ∀ (ms : List Mv) (st : G.Pos × List G.Pos) (acc a b : Val),
      (abMaxLoopS G f ms st acc a b).2 = st := by
  intro ms
  induction ms with
  | nil => intros; rfl
  | cons m t ih =>
      intro st acc a b
      have hst : gundo G ((f (gmove G st m) a b).2) = st := by
        rw [hf]
        exact gundo_gmove G st m
      have hu : abMaxLoopS G f (m :: t) st acc a b
          = (if b ≤ max a (f (gmove G st m) a b).1
              then (max acc (f (gmove G st m) a b).1, gundo G (f (gmove G st m) a b).2)
              else abMaxLoopS G f t (gundo G (f (gmove G st m) a b).2)
                     (max acc (f (gmove G st m) a b).1)
                     (max a (f (gmove G st m) a b).1) b) := rfl
      rw [hu, hst]
      by_cases hb : b ≤ max a (f (gmove G st m) a b).1
      · rw [if_pos hb]
      · rw [if_neg hb]
        exact ih st _ _ _

lemma abMinLoopS_state (G : Game)
    (f : G.Pos × List G.Pos → Val → Val → Val × (G.Pos × List G.Pos))
    (hf : ∀ st a b, (f st a b).2 = st) :
    ∀ (ms : List Mv) (st : G.Pos × List G.Pos) (acc a b : Val),
      (abMinLoopS G f ms st acc a b).2 = st := by
  intro ms
  induction ms with
  | nil => intros; rfl
  | cons m t ih =>
      intro st acc a b
      have hst : gundo G ((f (gmove G st m) a b).2) = st := by
        rw [hf]
        exact gundo_gmove G st m
      have hu : abMinLoopS G f (m :: t) st acc a b
          = (if min b (f (gmove G st m) a b).1 ≤ a
              then (min acc (f (gmove G st m) a b).1, gundo G (f (gmove G st m) a b).2)
              else abMinLoopS G f t (gundo G (f (gmove G st m) a b).2)
                     (min acc (f (gmove G st m) a b).1) a
                     (min b (f (gmove G st m) a b).1)) := rfl
      rw [hu, hst]
      by_cases hb : min b (f (gmove G st m) a b).1 ≤ a
      · rw [if_pos hb]
      · rw [if_neg hb]
        exact ih st _ _ _

/-- `minimax` restores the shared game object: every `game.move` during
the search, including those before a pruning cutoff, is matched by a
`game.undo` before the call returns. -/
lemma minimaxS_state (G : Game) :
    ∀ (d : ℕ) (st : G.Pos × List G.Pos) (isMaximizing : Bool) (alpha beta : Val),
      (minimaxS G d st isMaximizing alpha beta).2 = st := by
  intro d
  induction d with
  | zero => intros; rfl
  | succ d ih =>
      intro st maxi a b
      have hu : minimaxS G (d + 1) st maxi a b
          = (if G.isGameOver st.1 then (evaluateBoard G st.1, st)
             else if maxi then
               abMaxLoopS G (fun st a b => minimaxS G d st false a b)
                 (G.moves st.1) st ⊥ a b
             else
               abMinLoopS G (fun st a b => minimaxS G d st true a b)
                 (G.moves st.1) st ⊤ a b) := rfl
      rw [hu]
      by_cases hgo : G.isGameOver st.1
      · rw [if_pos hgo]
      · rw [if_neg hgo]
        cases maxi with
        | true =>
            exact abMaxLoopS_state G _ (fun st a b => ih st false a b) _ st ⊥ a b
        | false =>
            exact abMinLoopS_state G _ (fun st a b => ih st true a b) _ st ⊤ a b

lemma bestFoldS_state (G : Game) (d : ℕ) (maxi : Bool) :
    ∀ (ms : List Mv) (st : G.Pos × List G.Pos) (bm : Option Mv) (bv : Val),
      (bestFoldS G d maxi ms st bm bv).2 = st := by
  intro ms
  induction ms with
  | nil => intros; rfl
  | cons m t ih =>
      intro st bm bv
      have hst : gundo G ((minimaxS G d (gmove G st m) (!maxi) ⊥ ⊤).2) = st := by
        rw [minimaxS_state]
        exact gundo_gmove G st m
      cases maxi with
      | true =>
          have hu : bestFoldS G d true (m :: t) st bm bv
              = (if bv < (minimaxS G d (gmove G st m) (!true) ⊥ ⊤).1
                  then bestFoldS G d true t
                    (gundo G (minimaxS G d (gmove G st m) (!true) ⊥ ⊤).2)
                    (some m) (minimaxS G d (gmove G st m) (!true) ⊥ ⊤).1
                  else bestFoldS G d true t
                    (gundo G (minimaxS G d (gmove G st m) (!true) ⊥ ⊤).2) bm bv) := rfl
          rw [hu, hst]
          by_cases hb : bv < (minimaxS G d (gmove G st m) (!true) ⊥ ⊤).1
          · rw [if_pos hb]
            exact ih st _ _
          · rw [if_neg hb]
            exact ih st _ _
      | false =>
          have hu : bestFoldS G d false (m :: t) st bm bv
              = (if (minimaxS G d (gmove G st m) (!false) ⊥ ⊤).1 < bv
                  then bestFoldS G d false t
                    (gundo G (minimaxS G d (gmove G st m) (!false) ⊥ ⊤).2)
                    (some m) (minimaxS G d (gmove G st m) (!false) ⊥ ⊤).1
                  else bestFoldS G d false t
                    (gundo G (minimaxS G d (gmove G st m) (!false) ⊥ ⊤).2) bm bv) := rfl
          rw [hu, hst]
          by_cases hb : (minimaxS G d (gmove G st m) (!false) ⊥ ⊤).1 < bv
          · rw [if_pos hb]
            exact ih st _ _
          · rw [if_neg hb]
            exact ih st _ _

lemma abMaxLoopS_fst (G : Game)
    (f : G.Pos × List G.Pos → Val → Val → Val × (G.Pos × List G.Pos))
    (g : G.Pos → Val → Val → Val)
    (hf : ∀ st a b, (f st a b).2 = st)
    (hv : ∀ st a b, (f st a b).1 = g st.1 a b) :
    ∀ (ms : List Mv) (st : G.Pos × List G.Pos) (acc a b : Val),
      (abMaxLoopS G f ms st acc a b).1
        = abMaxLoop (fun m a b => g (G.apply st.1 m) a b) ms acc a b := by
  intro ms
  induction ms with
  | nil => intros; rfl
  | cons m t ih =>
      intro st acc a b
      have hst : gundo G ((f (gmove G st m) a b).2) = st := by
        rw [hf]
        exact gundo_gmove G st m
      have hval : (f (gmove G st m) a b).1 = g (G.apply st.1 m) a b := hv _ a b
      have huS : abMaxLoopS G f (m :: t) st acc a b
          = (if b ≤ max a (f (gmove G st m) a b).1
              then (max acc (f (gmove G st m) a b).1, gundo G (f (gmove G st m) a b).2)
              else abMaxLoopS G f t (gundo G (f (gmove G st m) a b).2)
                     (max acc (f (gmove G st m) a b).1)
                     (max a (f (gmove G st m) a b).1) b) := rfl
      have huP : abMaxLoop (fun m a b => g (G.apply st.1 m) a b) (m :: t) acc a b
          = (if b ≤ max a (g (G.apply st.1 m) a b)
              then max acc (g (G.apply st.1 m) a b)
              else abMaxLoop (fun m a b => g (G.apply st.1 m) a b) t
                     (max acc (g (G.apply st.1 m) a b))
                     (max a (g (G.apply st.1 m) a b)) b) := rfl
      rw [huS, huP, hst, hval]
      by_cases hb : b ≤ max a (g (G.apply st.1 m) a b)
      · rw [if_pos hb, if_pos hb]
      · rw [if_neg hb, if_neg hb]
        exact ih st _ _ _

lemma abMinLoopS_fst (G : Game)
    (f : G.Pos × List G.Pos → Val → Val → Val × (G.Pos × List G.Pos))
    (g : G.Pos → Val → Val → Val)
    (hf : ∀ st a b, (f st a b).2 = st)
    (hv : ∀ st a b, (f st a b).1 = g st.1 a b) :
    ∀ (ms : List Mv) (st : G.Pos × List G.Pos) (acc a b : Val),
      (abMinLoopS G f ms st acc a b).1
        = abMinLoop (fun m a b => g (G.apply st.1 m) a b) ms acc a b := by
  intro ms
  induction ms with
  | nil => intros; rfl
  | cons m t ih =>
      intro st acc a b
      have hst : gundo G ((f (gmove G st m) a b).2) = st := by
        rw [hf]
        exact gundo_gmove G st m
      have hval : (f (gmove G st m) a b).1 = g (G.apply st.1 m) a b := hv _ a b
      have huS : abMinLoopS G f (m :: t) st acc a b
          = (if min b (f (gmove G st m) a b).1 ≤ a
              then (min acc (f (gmove G st m) a b).1, gundo G (f (gmove G st m) a b).2)
              else abMinLoopS G f t (gundo G (f (gmove G st m) a b).2)
                     (min acc (f (gmove G st m) a b).1) a
                     (min b (f (gmove G st m) a b).1)) := rfl
      have huP : abMinLoop (fun m a b => g (G.apply st.1 m) a b) (m :: t) acc a b
          = (if min b (g (G.apply st.1 m) a b) ≤ a
              then min acc (g (G.apply st.1 m) a b)
              else abMinLoop (fun m a b => g (G.apply st.1 m) a b) t
                     (min acc (g (G.apply st.1 m) a b)) a
                     (min b (g (G.apply st.1 m) a b))) := rfl
      rw [huS, huP, hst, hval]
      by_cases hb : min b (g (G.apply st.1 m) a b) ≤ a
      · rw [if_pos hb, if_pos hb]
      · rw [if_neg hb, if_neg hb]
        exact ih st _ _ _

/-- The value computed by the stateful `minimax` (threading the shared
game object) is the pure `minimax` value of the current position. -/
lemma minimaxS_fst (G : Game) :
    ∀ (d : ℕ) (st : G.Pos × List G.Pos) (isMaximizing : Bool) (alpha beta : Val),
      (minimaxS G d st isMaximizing alpha beta).1
        = minimax G d st.1 isMaximizing alpha beta := by
  intro d
  induction d with
  | zero => intros; rfl
  | succ d ih =>
      intro st maxi a b
      have huS : minimaxS G (d + 1) st maxi a b
          = (if G.isGameOver st.1 then (evaluateBoard G st.1, st)
             else if maxi then
               abMaxLoopS G (fun st a b => minimaxS G d st false a b)
                 (G.moves st.1) st ⊥ a b
             else
               abMinLoopS G (fun st a b => minimaxS G d st true a b)
                 (G.moves st.1) st ⊤ a b) := rfl
      have huP : minimax G (d + 1) st.1 maxi a b
          = (if G.isGameOver st.1 then evaluateBoard G st.1
             else if maxi then
               abMaxLoop (fun m a b => minimax G d (G.apply st.1 m) false a b)
                 (G.moves st.1) ⊥ a b
             else
               abMinLoop (fun m a b => minimax G d (G.apply st.1 m) true a b)
                 (G.moves st.1) ⊤ a b) := rfl
      rw [huS, huP]
      by_cases hgo : G.isGameOver st.1
      · rw [if_pos hgo, if_pos hgo]
      · rw [if_neg hgo, if_neg hgo]
        cases maxi with
        | true =>
            exact abMaxLoopS_fst G (fun st a b => minimaxS G d st false a b)
              (fun q a b => minimax G d q false a b)
              (fun st a b => minimaxS_state G d st false a b)
              (fun st a b => ih st false a b) (G.moves st.1) st ⊥ a b
        | false =>
            exact abMinLoopS_fst G (fun st a b => minimaxS G d st true a b)
              (fun q a b => minimax G d q true a b)
              (fun st a b => minimaxS_state G d st true a b)
              (fun st a b => ih st true a b) (G.moves st.1) st ⊤ a b

/-- The move/value pair selected by the stateful `getBestMove` candidate
loop is the pure one. -/
lemma bestFoldS_fst (G : Game) (d : ℕ) (maxi : Bool) :
    ∀ (ms : List Mv) (st : G.Pos × List G.Pos) (bm : Option Mv) (bv : Val),
      (bestFoldS G d maxi ms st bm bv).1 = bestFold G d maxi st.1 ms bm bv := by
  intro ms
  induction ms with
  | nil => intros; rfl
  | cons m t ih =>
      intro st bm bv
      have hst : gundo G ((minimaxS G d (gmove G st m) (!maxi) ⊥ ⊤).2) = st := by
        rw [minimaxS_state]
        exact gundo_gmove G st m
      have hval : (minimaxS G d (gmove G st m) (!maxi) ⊥ ⊤).1
          = minimax G d (G.apply st.1 m) (!maxi) ⊥ ⊤ :=
        minimaxS_fst G d (gmove G st m) (!maxi) ⊥ ⊤
      cases maxi with
      | true =>
          have huS : bestFoldS G d true (m :: t) st bm bv
              = (if bv < (minimaxS G d (gmove G st m) (!true) ⊥ ⊤).1
                  then bestFoldS G d true t
                    (gundo G (minimaxS G d (gmove G st m) (!true) ⊥ ⊤).2)
                    (some m) (minimaxS G d (gmove G st m) (!true) ⊥ ⊤).1
                  else bestFoldS G d true t
                    (gundo G (minimaxS G d (gmove G st m) (!true) ⊥ ⊤).2) bm bv) := rfl
          have huP : bestFold G d true st.1 (m :: t) bm bv
              = (if bv < minimax G d (G.apply st.1 m) (!true) ⊥ ⊤
                  then bestFold G d true st.1 t (some m)
                    (minimax G d (G.apply st.1 m) (!true) ⊥ ⊤)
                  else bestFold G d true st.1 t bm bv) := rfl
          rw [huS, huP, hst, hval]
          by_cases hb : bv < minimax G d (G.apply st.1 m) (!true) ⊥ ⊤
          · rw [if_pos hb, if_pos hb]
            exact ih st _ _
          · rw [if_neg hb, if_neg hb]
            exact ih st _ _
      | false =>
          have huS : bestFoldS G d false (m :: t) st bm bv
              = (if (minimaxS G d (gmove G st m) (!false) ⊥ ⊤).1 < bv
                  then bestFoldS G d false t
                    (gundo G (minimaxS G d (gmove G st m) (!false) ⊥ ⊤).2)
                    (some m) (minimaxS G d (gmove G st m) (!false) ⊥ ⊤).1
                  else bestFoldS G d false t
                    (gundo G (minimaxS G d (gmove G st m) (!false) ⊥ ⊤).2) bm bv) := rfl
          have huP : bestFold G d false st.1 (m :: t) bm bv
              = (if minimax G d (G.apply st.1 m) (!false) ⊥ ⊤ < bv
                  then bestFold G d false st.1 t (some m)
                    (minimax G d (G.apply st.1 m) (!false) ⊥ ⊤)
                  else bestFold G d false st.1 t bm bv) := rfl
          rw [huS, huP, hst, hval]
          by_cases hb : minimax G d (G.apply st.1 m) (!false) ⊥ ⊤ < bv
          · rw [if_pos hb, if_pos hb]
            exact ih st _ _
          · rw [if_neg hb, if_neg hb]
            exact ih st _ _

lemma getBestMoveS_fst (G : Game) (difficulty : Difficulty)
    (st : G.Pos × List G.Pos) (shuffled : List Mv) :
    (getBestMoveS G difficulty st shuffled).1
      = getBestMove G difficulty st.1 shuffled :=
  bestFoldS_fst G (getSearchDepth difficulty - 1)
    (decide (G.turn st.1 = Color.w)) shuffled st none _

lemma getBestMoveS_state (G : Game) (difficulty : Difficulty)
    (st : G.Pos × List G.Pos) (shuffled : List Mv) :
    (getBestMoveS G difficulty st shuffled).2 = st :=
  bestFoldS_state G (getSearchDepth difficulty - 1)
    (decide (G.turn st.1 = Color.w)) shuffled st none _

/-- C7: the search never leaves the shared game object mutated: every
`minimax` call (including calls that exit early through a `beta <=
alpha` cutoff, whose `game.undo` precedes the break) and every
`getBestMove` call returns the game object exactly as it was on entry. -/
theorem search_restores_position (G : Game) :
    (∀ (d : ℕ) (st : G.Pos × List G.Pos) (isMaximizing : Bool) (alpha beta : Val),
        (minimaxS G d st isMaximizing alpha beta).2 = st)
    ∧ ∀ (difficulty : Difficulty) (st : G.Pos × List G.Pos) (shuffled : List Mv),
        (getBestMoveS G difficulty st shuffled).2 = st :=
  ⟨minimaxS_state G, getBestMoveS_state G⟩

lemma abMaxLoopT_fst (G : Game) (fT : G.Pos → Val → Val → Val × List (Call G))
    (g : G.Pos → Val → Val → Val) (hv : ∀ q a b, (fT q a b).1 = g q a b) :
    ∀ (ms : List Mv) (p : G.Pos) (acc a b : Val),
      (abMaxLoopT G fT ms p acc a b).1
        = abMaxLoop (fun m a b => g (G.apply p m) a b) ms acc a b := by
  intro ms
  induction ms with
  | nil => intros; rfl
  | cons m t ih =>
      intro p acc a b
      have huT : abMaxLoopT G fT (m :: t) p acc a b
          = (if b ≤ max a (fT (G.apply p m) a b).1
              then (max acc (fT (G.apply p m) a b).1, (fT (G.apply p m) a b).2)
              else ((abMaxLoopT G fT t p (max acc (fT (G.apply p m) a b).1)
                       (max a (fT (G.apply p m) a b).1) b).1,
                    (fT (G.apply p m) a b).2
                      ++ (abMaxLoopT G fT t p (max acc (fT (G.apply p m) a b).1)
                            (max a (fT (G.apply p m) a b).1) b).2)) := rfl
      have huP : abMaxLoop (fun m a b => g (G.apply p m) a b) (m :: t) acc a b
          = (if b ≤ max a (g (G.apply p m) a b)
              then max acc (g (G.apply p m) a b)
              else abMaxLoop (fun m a b => g (G.apply p m) a b) t
                     (max acc (g (G.apply p m) a b)) (max a (g (G.apply p m) a b)) b) := rfl
      rw [huT, huP, hv]
      by_cases hb : b ≤ max a (g (G.apply p m) a b)
      · rw [if_pos hb, if_pos hb]
      · rw [if_neg hb, if_neg hb]
        exact ih p _ _ _

lemma abMinLoopT_fst (G : Game) (fT : G.Pos → Val → Val → Val × List (Call G))
    (g : G.Pos → Val → Val → Val) (hv : ∀ q a b, (fT q a b).1 = g q a b) :
    ∀ (ms : List Mv) (p : G.Pos) (acc a b : Val),
      (abMinLoopT G fT ms p acc a b).1
        = abMinLoop (fun m a b => g (G.apply p m) a b) ms acc a b := by
  intro ms
  induction ms with
  | nil => intros; rfl
  | cons m t ih =>
      intro p acc a b
      have huT : abMinLoopT G fT (m :: t) p acc a b
          = (if min b (fT (G.apply p m) a b).1 ≤ a
              then (min acc (fT (G.apply p m) a b).1, (fT (G.apply p m) a b).2)
              else ((abMinLoopT G fT t p (min acc (fT (G.apply p m) a b).1) a
                       (min b (fT (G.apply p m) a b).1)).1,
                    (fT (G.apply p m) a b).2
                      ++ (abMinLoopT G fT t p (min acc (fT (G.apply p m) a b).1) a
                            (min b (fT (G.apply p m) a b).1)).2)) := rfl
      have huP : abMinLoop (fun m a b => g (G.apply p m) a b) (m :: t) acc a b
          = (if min b (g (G.apply p m) a b) ≤ a
              then min acc (g (G.apply p m) a b)
              else abMinLoop (fun m a b => g (G.apply p m) a b) t
                     (min acc (g (G.apply p m) a b)) a (min b (g (G.apply p m) a b))) := rfl
      rw [huT, huP, hv]
      by_cases hb : min b (g (G.apply p m) a b) ≤ a
      · rw [if_pos hb, if_pos hb]
      · rw [if_neg hb, if_neg hb]
        exact ih p _ _ _

/-- The value carried by the instrumented `minimaxT` is the value of the
plain embedded `minimax`; the second component only observes the calls. -/
lemma minimaxT_fst (G : Game) :
    ∀ (d : ℕ) (p : G.Pos) (isMaximizing : Bool) (alpha beta : Val),
      (minimaxT G d p isMaximizing alpha beta).1
        = minimax G d p isMaximizing alpha beta := by
  intro d
  induction d with
  | zero => intros; rfl
  | succ d ih =>
      intro p maxi a b
      have huT : minimaxT G (d + 1) p maxi a b
          = (if G.isGameOver p then (evaluateBoard G p, [⟨p, d + 1, maxi, a, b⟩])
             else if maxi then
               ((abMaxLoopT G (fun q a b => minimaxT G d q false a b) (G.moves p) p ⊥ a b).1,
                ⟨p, d + 1, maxi, a, b⟩
                  :: (abMaxLoopT G (fun q a b => minimaxT G d q false a b)
                        (G.moves p) p ⊥ a b).2)
             else
               ((abMinLoopT G (fun q a b => minimaxT G d q true a b) (G.moves p) p ⊤ a b).1,
                ⟨p, d + 1, maxi, a, b⟩
                  :: (abMinLoopT G (fun q a b => minimaxT G d q true a b)
                        (G.moves p) p ⊤ a b).2)) := rfl
      have huP : minimax G (d + 1) p maxi a b
          = (if G.isGameOver p then evaluateBoard G p
             else if maxi then
               abMaxLoop (fun m a b => minimax G d (G.apply p m) false a b)
                 (G.moves p) ⊥ a b
             else
               abMinLoop (fun m a b => minimax G d (G.apply p m) true a b)
                 (G.moves p) ⊤ a b) := rfl
      rw [huT, huP]
      by_cases hgo : G.isGameOver p
      · rw [if_pos hgo, if_pos hgo]
      · rw [if_neg hgo, if_neg hgo]
        cases maxi with
        | true =>
            exact abMaxLoopT_fst G (fun q a b => minimaxT G d q false a b)
              (fun q a b => minimax G d q false a b)
              (fun q a b => ih q false a b) (G.moves p) p ⊥ a b
        | false =>
            exact abMinLoopT_fst G (fun q a b => minimaxT G d q true a b)
              (fun q a b => minimax G d q true a b)
              (fun q a b => ih q true a b) (G.moves p) p ⊤ a b

lemma bestFoldT_fst (G : Game) (d : ℕ) (maxi : Bool) (p : G.Pos) :
    ∀ (ms : List Mv) (bm : Option Mv) (bv : Val),
      (bestFoldT G d maxi p ms bm bv).1 = bestFold G d maxi p ms bm bv := by
  intro ms
  induction ms with
  | nil => intros; rfl
  | cons m t ih =>
      intro bm bv
      have hval : (minimaxT G d (G.apply p m) (!maxi) ⊥ ⊤).1
          = minimax G d (G.apply p m) (!maxi) ⊥ ⊤ := minimaxT_fst G d _ _ ⊥ ⊤
      have huT : bestFoldT G d maxi p (m :: t) bm bv
          = ((bestFoldT G d maxi p t
                (if maxi then
                  if bv < (minimaxT G d (G.apply p m) (!maxi) ⊥ ⊤).1
                    then (some m, (minimaxT G d (G.apply p m) (!maxi) ⊥ ⊤).1)
                    else (bm, bv)
                 else
                  if (minimaxT G d (G.apply p m) (!maxi) ⊥ ⊤).1 < bv
                    then (some m, (minimaxT G d (G.apply p m) (!maxi) ⊥ ⊤).1)
                    else (bm, bv)).1
                (if maxi then
                  if bv < (minimaxT G d (G.apply p m) (!maxi) ⊥ ⊤).1
                    then (some m, (minimaxT G d (G.apply p m) (!maxi) ⊥ ⊤).1)
                    else (bm, bv)
                 else
                  if (minimaxT G d (G.apply p m) (!maxi) ⊥ ⊤).1 < bv
                    then (some m, (minimaxT G d (G.apply p m) (!maxi) ⊥ ⊤).1)
                    else (bm, bv)).2).1,
             (minimaxT G d (G.apply p m) (!maxi) ⊥ ⊤).2
               ++ (bestFoldT G d maxi p t
                     (if maxi then
                       if bv < (minimaxT G d (G.apply p m) (!maxi) ⊥ ⊤).1
                         then (some m, (minimaxT G d (G.apply p m) (!maxi) ⊥ ⊤).1)
                         else (bm, bv)
                      else
                       if (minimaxT G d (G.apply p m) (!maxi) ⊥ ⊤).1 < bv
                         then (some m, (minimaxT G d (G.apply p m) (!maxi) ⊥ ⊤).1)
                         else (bm, bv)).1
                     (if maxi then
                       if bv < (minimaxT G d (G.apply p m) (!maxi) ⊥ ⊤).1
                         then (some m, (minimaxT G d (G.apply p m) (!maxi) ⊥ ⊤).1)
                         else (bm, bv)
                      else
                       if (minimaxT G d (G.apply p m) (!maxi) ⊥ ⊤).1 < bv
                         then (some m, (minimaxT G d (G.apply p m) (!maxi) ⊥ ⊤).1)
                         else (bm, bv)).2).2) := rfl
      rw [huT, hval]
      cases maxi with
      | true =>
          have huP : bestFold G d true p (m :: t) bm bv
              = (if bv < minimax G d (G.apply p m) (!true) ⊥ ⊤
                  then bestFold G d true p t (some m) (minimax G d (G.apply p m) (!true) ⊥ ⊤)
                  else bestFold G d true p t bm bv) := rfl
          rw [huP]
          by_cases hb : bv < minimax G d (G.apply p m) (!true) ⊥ ⊤
          · rw [if_pos hb, if_pos hb]
            exact ih _ _
          · rw [if_neg hb, if_neg hb]
            exact ih _ _
      | false =>
          have huP : bestFold G d false p (m :: t) bm bv
              = (if minimax G d (G.apply p m) (!false) ⊥ ⊤ < bv
                  then bestFold G d false p t (some m) (minimax G d (G.apply p m) (!false) ⊥ ⊤)
                  else bestFold G d false p t bm bv) := rfl
          rw [huP]
          by_cases hb : minimax G d (G.apply p m) (!false) ⊥ ⊤ < bv
          · rw [if_pos hb, if_pos hb]
            exact ih _ _
          · rw [if_neg hb, if_neg hb]
            exact ih _ _

lemma getBestMoveT_fst (G : Game) (difficulty : Difficulty) (p : G.Pos)
    (shuffled : List Mv) :
    (getBestMoveT G difficulty p shuffled).1 = getBestMove G difficulty p shuffled :=
  bestFoldT_fst G (getSearchDepth difficulty - 1)
    (decide (G.turn p = Color.w)) p shuffled none _

/-- C2 witness: in `mateTrapGame` every candidate value is `-Infinity`,
so the characterization yields `none`. -/
theorem getBestMove_none_iff_witness :
    (getBestMove mateTrapGame Difficulty.easy 0 (mateTrapGame.moves 0)).1 = none :=
  (getBestMove_none_iff mateTrapGame Difficulty.easy 0 (mateTrapGame.moves 0)).mpr
    (by decide)

/-- C3 (amended): `capturedPieces[c]` lists, in chronological order, the
captured piece kinds of the history entries made by side `c` itself —
i.e. the opponent pieces that `c` captured — and `len(capturedPieces[c])`
equals the number of history entries made by `c` with a non-empty
`capturedPiece` (not the entries made by the side opposite `c`). -/
theorem capturedPieces_by_mover (history : List Mv) :
    getCapturedPieces history
      = (capturedBy Color.w history, capturedBy Color.b history)
    ∧ (getCapturedPieces history).1.length
        = (history.filter (fun m => decide (m.color = Color.w) && m.captured.isSome)).length
    ∧ (getCapturedPieces history).2.length
        = (history.filter (fun m => decide (m.color = Color.b) && m.captured.isSome)).length := by
  have h := getCapturedPieces_foldl history ([], [])
  have hmain : getCapturedPieces history
      = (capturedBy Color.w history, capturedBy Color.b history) := by
    unfold getCapturedPieces
    rw [h]
    rfl
  refine ⟨hmain, ?_, ?_⟩
  · rw [hmain]
    exact capturedBy_length Color.w history
  · rw [hmain]
    exact capturedBy_length Color.b history

/-- C3 counterexample: a single-entry history in which White captures a
pawn.  The code stores that pawn in `capturedPieces[w]` (length 1),
while the number of history entries made by Black (the side opposite
White) with a non-empty `capturedPiece` is 0 — so
`len(capturedPieces[White])` does not equal the count of Black capture
entries, contradicting the claim. -/
theorem capturedPieces_claim_false :
    ((getCapturedPieces [⟨"d4", "e5", Color.w, some Pc.p, none⟩]).1).length = 1
    ∧ (List.filter (fun m => decide (m.color = Color.b) && m.captured.isSome)
        [(⟨"d4", "e5", Color.w, some Pc.p, none⟩ : Mv)]).length = 0 := by
  refine ⟨by decide, by decide⟩

/-- C4: the evaluator handles terminal positions first: on checkmate it
returns the signed extreme (`-Infinity` when White — the side to move,
hence the mated side — is to move, `+Infinity` when Black is), and on
stalemate or any draw it returns exactly `0`, never falling through to
the material/positional summation.  The hypotheses record rules-engine
facts: chess.js reports every stalemate also as a draw, and a checkmate
is neither a stalemate nor a draw. -/
theorem evaluator_terminal_first (G : Game) (p : G.Pos)
    (hsd : G.isStalemate p = true → G.isDraw p = true)
    (hcx : G.isCheckmate p = true → G.isStalemate p = false ∧ G.isDraw p = false) :
    (G.isCheckmate p = true →
        evaluateBoard G p = (if G.turn p = Color.w then (⊥ : Val) else (⊤ : Val)))
    ∧ ((G.isStalemate p = true ∨ G.isDraw p = true) →
        evaluateBoard G p = Val.fin 0) := by
  constructor
  · intro hc
    unfold evaluateBoard
    rw [if_pos hc]
  · intro hs
    have hd : G.isDraw p = true := hs.elim hsd id
    have hc : G.isCheckmate p = false := by
      cases hcm : G.isCheckmate p
      · rfl
      · exact absurd hd (by rw [(hcx hcm).2]; exact Bool.false_ne_true)
    unfold evaluateBoard
    rw [if_neg (by rw [hc]; exact Bool.false_ne_true), if_pos hd]

/-- C4 witness: on a stalemate rules-engine state the evaluator returns
exactly 0. -/
theorem evaluator_terminal_first_witness :
    evaluateBoard stalemateGame () = Val.fin 0 :=
  (evaluator_terminal_first stalemateGame () (fun _ => rfl)
    (fun h => nomatch h)).2 (Or.inl rfl)

/-- C5: the win-probability estimator applies the terminal overrides
before the logistic transform: on checkmate the side to move is the
loser (`{white 0, black 100}` when White is to move, `{100, 0}` when
Black is), and on stalemate or any draw it returns exactly `{50, 50}`.
Rules-engine hypotheses as in the evaluator theorem. -/
theorem winProbability_terminal_override (G : Game) (p : G.Pos)
    (hsd : G.isStalemate p = true → G.isDraw p = true)
    (hcx : G.isCheckmate p = true → G.isStalemate p = false ∧ G.isDraw p = false) :
    (G.isCheckmate p = true →
        getWinProbability G p
          = (if G.turn p = Color.w then ((0 : ℤ), (100 : ℤ)) else (100, 0)))
    ∧ ((G.isStalemate p = true ∨ G.isDraw p = true) →
        getWinProbability G p = (50, 50)) := by
  constructor
  · intro hc
    simp only [getWinProbability]
    rw [if_pos hc]
  · intro hs
    have hd : G.isDraw p = true := hs.elim hsd id
    have hc : G.isCheckmate p = false := by
      cases hcm : G.isCheckmate p
      · rfl
      · exact absurd hd (by rw [(hcx hcm).2]; exact Bool.false_ne_true)
    simp only [getWinProbability]
    rw [if_neg (by rw [hc]; exact Bool.false_ne_true), if_pos hd]

/-- C5 witness: on a checkmate state with White to move the estimator
returns `{white 0, black 100}`. -/
theorem winProbability_terminal_override_witness :
    getWinProbability checkmateGame () = (0, 100) := by
  have h := (winProbability_terminal_override checkmateGame ()
    (fun h => nomatch h) (fun _ => ⟨rfl, rfl⟩)).1 rfl
  simpa using h

/-- C6: on every non-terminal position the estimator computes
`whitePercent = round(100 / (1 + 10^(-evaluation/400)))` (over the
reals, with `evaluation` the material/positional score) and
`blackPercent = 100 - whitePercent`, so the two percentages always sum
to exactly 100. -/
theorem winProbability_closure (G : Game) (p : G.Pos)
    (hc : G.isCheckmate p = false) (hd : G.isDraw p = false) :
    (getWinProbability G p).1
      = round ((100 : ℝ) / (1 + (10 : ℝ) ^ (-((scoreBoard (G.board p) : ℤ) : ℝ) / 400)))
    ∧ (getWinProbability G p).1 + (getWinProbability G p).2 = 100 := by
  have hcn : ¬ G.isCheckmate p = true := by rw [hc]; exact Bool.false_ne_true
  have hdn : ¬ G.isDraw p = true := by rw [hd]; exact Bool.false_ne_true
  have he : evaluateBoard G p = Val.fin (scoreBoard (G.board p)) := by
    unfold evaluateBoard
    rw [if_neg hcn, if_neg hdn]
  have hu : getWinProbability G p
      = (round (sigmoidOf (evaluateBoard G p) * 100),
         100 - round (sigmoidOf (evaluateBoard G p) * 100)) := by
    simp only [getWinProbability]
    rw [if_neg hcn, if_neg hdn]
  have hsig : sigmoidOf (evaluateBoard G p)
      = 1 / (1 + (10 : ℝ) ^ (-((scoreBoard (G.board p) : ℤ) : ℝ) / 400)) := by
    rw [he]
    rfl
  constructor
  · rw [hu]
    show round (sigmoidOf (evaluateBoard G p) * 100) = _
    rw [hsig, one_div, inv_mul_eq_div]
  · rw [hu]
    show round (sigmoidOf (evaluateBoard G p) * 100)
        + (100 - round (sigmoidOf (evaluateBoard G p) * 100)) = 100
    ring

/-- C6 witness: on the (non-terminal) standard starting state the two
percentages sum to exactly 100. -/
theorem winProbability_closure_witness :
    (getWinProbability startGame ()).1 + (getWinProbability startGame ()).2 = 100 :=
  (winProbability_closure startGame () rfl rfl).2

/-- C8: `makeMove` on a triple the Rules Engine rejects returns `null`
and returns the session exactly as it was — same position and same
history, hence the same derived captured-piece lists and terminal
flags — and conversely any call that changed the session at all
returned a move: state is mutated only on success. -/
theorem makeMove_illegal_unchanged (G : Game) (st : Session G) (src dst : Square)
    (promotion : Option Pc) :
    (¬ IsLegal G st.pos src dst (promotion.getD Pc.q) →
        makeMove G st src dst promotion = (none, st))
    ∧ ((makeMove G st src dst promotion).2 ≠ st →
        ((makeMove G st src dst promotion).1).isSome = true) := by
  rcases hmv : G.tryMove st.pos src dst (promotion.getD Pc.q) with _ | ⟨m, p'⟩
  · constructor
    · intro _
      unfold makeMove
      rw [hmv]
    · intro hne
      exfalso
      apply hne
      show (makeMove G st src dst promotion).2 = st
      unfold makeMove
      rw [hmv]
  · constructor
    · intro hleg
      exact absurd (by rw [IsLegal, hmv]; rfl) hleg
    · intro _
      show ((makeMove G st src dst promotion).1).isSome = true
      unfold makeMove
      rw [hmv]
      rfl

/-- C8 witness: submitting a move to a rules engine that rejects every
input leaves the fresh session untouched and yields no move. -/
theorem makeMove_illegal_unchanged_witness :
    makeMove startGame ⟨(), []⟩ "e2" "e4" none = (none, ⟨(), []⟩) :=
  (makeMove_illegal_unchanged startGame ⟨(), []⟩ "e2" "e4" none).1 (by decide)

/-- C9: the evaluator applied to the standard starting position returns
exactly 0 — the material terms and the mirrored pawn/knight positional
bonuses of White and Black cancel exactly. -/
theorem evaluator_start_zero (G : Game) (p : G.Pos) (hb : G.board p = startBoard)
    (hc : G.isCheckmate p = false) (hd : G.isDraw p = false) :
    scoreBoard startBoard = 0 ∧ evaluateBoard G p = Val.fin 0 := by
  have hs : scoreBoard startBoard = 0 := by decide
  refine ⟨hs, ?_⟩
  unfold evaluateBoard
  rw [if_neg (by rw [hc]; exact Bool.false_ne_true),
    if_neg (by rw [hd]; exact Bool.false_ne_true), hb, hs]

/-- C9 witness: the evaluator on the concrete starting state. -/
theorem evaluator_start_zero_witness :
    evaluateBoard startGame () = Val.fin 0 :=
  (evaluator_start_zero startGame () rfl rfl rfl).2

/-- C10: an omitted promotion argument is replaced by `q` before the
move is submitted to the rules engine: `makeMove(from, to)` is exactly
`makeMove(from, to, q)`, so when `(from, to)` with promotion `q` is a
legal (promotion) move, the move is applied promoting to a queen. -/
theorem makeMove_default_queen (G : Game) (st : Session G) (src dst : Square) :
    makeMove G st src dst none = makeMove G st src dst (some Pc.q)
    ∧ ∀ (m : Mv) (p' : G.Pos), G.tryMove st.pos src dst Pc.q = some (m, p') →
        makeMove G st src dst none = (some m, ⟨p', st.history ++ [(st.pos, m)]⟩) := by
  constructor
  · rfl
  · intro m p' hmv
    unfold makeMove
    rw [show (none : Option Pc).getD Pc.q = Pc.q from rfl, hmv]

/-- C10 witness: in `promoGame` the queening move `e7 → e8` submitted
without a promotion argument is applied as a promotion to a queen. -/
theorem makeMove_default_queen_witness :
    makeMove promoGame ⟨0, []⟩ "e7" "e8" none
      = (some promoMv, ⟨1, [((0 : ℕ), promoMv)]⟩) :=
  (makeMove_default_queen promoGame ⟨0, []⟩ "e7" "e8").2 promoMv 1 (by decide)

end ChessEngine
